import Mathlib

/-!
Verification of the dw6 workflow state engine (`src/dw6/state_manager.py`,
`src/dw6/git_handler.py`): a shallow embedding of the persistent state store,
the stage validation rules, the transition engine and the requirement-cycle
completion, together with theorems settling the specification's claims.

Strings are modelled as `List Char`; the relevant Python string builtins
(`strip`, `split`, `splitlines`, `startswith`, `in`, `replace`) are embedded
below with their Python semantics.
-/

abbrev Str := List Char

/-- Convert a Lean string literal into the `List Char` representation. -/
def s2l (s : String) : Str := s.data

/-- Python `str.isspace` characters stripped by `str.strip()` (the common set;
exotic unicode spaces beyond these do not occur in any input considered). -/
def isPySpace (c : Char) : Bool :=
  c = ' ' || c = '\t' || c = '\n' || c = '\r' || c = '\x0b' || c = '\x0c' ||
  c = '\x1c' || c = '\x1d' || c = '\x1e' || c = '\x1f' || c = '\x85' || c = '\xa0'

/-- Python `str.lstrip()`. -/
def lstrip (s : Str) : Str := s.dropWhile isPySpace

/-- Python `str.rstrip()`. -/
def rstrip (s : Str) : Str := (s.reverse.dropWhile isPySpace).reverse

/-- Python `str.strip()`. -/
def strip (s : Str) : Str := rstrip (lstrip s)

/-- Python substring containment `pat in s`. -/
def hasSub (pat : Str) : Str → Bool
  | [] => pat.isEmpty
  | c :: rest => pat.isPrefixOf (c :: rest) || hasSub pat rest

/-- Python `s.split(sep)` for a single-character separator: always returns
one more part than the number of separator occurrences. -/
def splitChar (sep : Char) : Str → List Str
  | [] => [[]]
  | c :: rest =>
    match splitChar sep rest with
    | [] => [[c]]
    | h :: t => if c = sep then [] :: h :: t else (c :: h) :: t

/-- Python line-boundary characters recognized by `str.splitlines()`
(after `\r\n` pairs have been normalized to `\n`). -/
def isBreakCh (c : Char) : Bool :=
  c = '\n' || c = '\r' || c = '\x0b' || c = '\x0c' ||
  c = '\x1c' || c = '\x1d' || c = '\x1e' || c = '\x85' ||
  c = '\u2028' || c = '\u2029'

/-- Collapse each `\r\n` pair to a single `\n`, so `str.splitlines()`'s
two-character boundary can be treated one character at a time. -/
def normCRLF : Str → Str
  | [] => []
  | [c] => [c]
  | c :: c' :: rest =>
    if c = '\r' ∧ c' = '\n' then '\n' :: normCRLF rest
    else c :: normCRLF (c' :: rest)

/-- Worker for `str.splitlines()`: a boundary ends the current chunk, and a
boundary at the very end of the input does not open a new empty chunk. -/
def slGo : Str → Str → List Str
  | [], acc => [acc.reverse]
  | c :: rest, acc =>
    if isBreakCh c then
      acc.reverse :: (match rest with | [] => [] | _ :: _ => slGo rest [])
    else slGo rest (c :: acc)

/-- Python `str.splitlines()` (`''.splitlines() = []`). -/
def splitlines (s : Str) : List Str :=
  match normCRLF s with
  | [] => []
  | c :: rest => slGo (c :: rest) []

/-- `"\n".join(lines) + "\n"`: the serialization used by
`WorkflowState.save` (state_manager.py line 158) and by the checklist
rewrite (line 299). -/
def joinNl : List Str → Str
  | [] => ['\n']
  | [l] => l ++ ['\n']
  | l :: l' :: rest => l ++ '\n' :: joinNl (l' :: rest)

/-- Python `s.replace(pat, rep, 1)`: replace the leftmost occurrence only. -/
def replOnce (pat rep : Str) : Str → Str
  | [] => []
  | c :: rest =>
    if pat.isPrefixOf (c :: rest) then rep ++ (c :: rest).drop pat.length
    else c :: replOnce pat rep rest

/-! ### Python integer rendering and parsing -/

/-- Decimal digit character for `d < 10`. -/
def digitChar (d : Nat) : Char := Char.ofNat (48 + d)

/-- Fuel-driven decimal rendering of a natural number (fuel is always
sufficient at `n + 1`). -/
def natToStrAux : Nat → Nat → Str
  | 0, _ => []
  | fuel + 1, n =>
    if n < 10 then [digitChar n]
    else natToStrAux fuel (n / 10) ++ [digitChar (n % 10)]

/-- Python `str(n)` for a natural number. -/
def natToStr (n : Nat) : Str := natToStrAux (n + 1) n

/-- Python `str(i)` for an integer. -/
def intToStr (i : Int) : Str :=
  if i < 0 then '-' :: natToStr (-i).toNat else natToStr i.toNat

/-- Is `c` a decimal digit? -/
def isDigitCh (c : Char) : Bool := '0' ≤ c && c ≤ '9'

/-- Numeric value of a digit character. -/
def digitVal (c : Char) : Nat := c.toNat - 48

/-- Parse a non-empty all-digit string. -/
def parseDigs (s : Str) : Option Nat :=
  if s ≠ [] && s.all isDigitCh then
    some (s.foldl (fun acc c => 10 * acc + digitVal c) 0)
  else none

/-- Python `int(s)`: strips surrounding whitespace, accepts an optional
sign followed by decimal digits, raises (`none`) otherwise.  (Underscore
digit grouping is not modelled; no input considered contains it.) -/
def pyInt (s : Str) : Option Int :=
  match strip s with
  | '-' :: ds => (parseDigs ds).map (fun n => -(n : Int))
  | '+' :: ds => (parseDigs ds).map (fun n => (n : Int))
  | ds => (parseDigs ds).map (fun n => (n : Int))

/-- Python `int(x)` where `x` may be `None` (a missing key): `int(None)`
raises, modelled as `none`. -/
def pyIntOpt : Option Str → Option Int
  | none => none
  | some s => pyInt s

/-! ### The persistent state store (`WorkflowState`, state_manager.py 119-158) -/

/-- Insert-or-update on an insertion-ordered association list: the
behavior of `dict.__setitem__`. -/
def dictSet (d : List (Str × Str)) (k v : Str) : List (Str × Str) :=
  match d with
  | [] => [(k, v)]
  | (k', v') :: rest => if k' = k then (k, v) :: rest else (k', v') :: dictSet rest k v

/-- Lookup on an association list: the behavior of `dict.get` (keys are
unique under `dictSet`, so first match is the binding). -/
def dGet (d : List (Str × Str)) (k : Str) : Option Str :=
  match d with
  | [] => none
  | (k', v') :: rest => if k' = k then some v' else dGet rest k

/-- `WorkflowState._parse`, one line (state_manager.py 129-137): strip the
line, strip one leading bullet marker, and if a `:` remains split into
`key` and value, the value being the part before any `#` comment,
stripped. Lines without a `:` yield nothing. -/
def parseLine (line : Str) : Option (Str × Str) :=
  let c0 := strip line
  let cleaned := if c0.head? = some '-' then lstrip (c0.drop 1) else c0
  if ':' ∈ cleaned then
    let key := cleaned.takeWhile (fun c => c ≠ ':')
    let rest := (cleaned.dropWhile (fun c => c ≠ ':')).drop 1
    let value := strip (rest.takeWhile (fun c => c ≠ '#'))
    some (strip key, value)
  else none

/-- One iteration of `_parse`'s loop: `self.data[key] = value` when the
line yields a pair. -/
def paStep (d : List (Str × Str)) (l : Str) : List (Str × Str) :=
  match parseLine l with
  | some kv => dictSet d kv.1 kv.2
  | none => d

/-- `WorkflowState._parse` over all lines: later occurrences of a key
overwrite earlier ones. -/
def parseAll (ls : List Str) : List (Str × Str) := ls.foldl paStep []

/-- The in-memory workflow state: the backing document's lines plus the
parsed key-value mapping. -/
structure WS where
  lines : List Str
  data : List (Str × Str)
deriving DecidableEq, Repr

/-- `WorkflowState.__init__` from the backing document's content
(state_manager.py 119-126): split into lines and parse. -/
def mkState (content : Str) : WS :=
  ⟨splitlines content, parseAll (splitlines content)⟩

/-- `WorkflowState.get` (state_manager.py 139-140). -/
def WS.get (st : WS) (k : Str) : Option Str := dGet st.data k

/-- The line `f"{key}: {value}"` written by `WorkflowState.set`. -/
def mkKV (k v : Str) : Str := k ++ [':', ' '] ++ v

/-- The replacement line `WorkflowState.set` builds for a matched line
(state_manager.py 147-150): `f"{key}: {value}{comment}"` where `comment`
is `" #"` plus the stripped text after the line's first `#`, if any. -/
def rewriteLine (k v line : Str) : Str :=
  let comment := if '#' ∈ line then
      [' ', '#'] ++ strip ((line.dropWhile (fun c => c ≠ '#')).drop 1)
    else []
  k ++ [':', ' '] ++ v ++ comment

/-- The match test of `WorkflowState.set`'s line scan (state_manager.py
146): `line.strip().startswith(key + ":")`. -/
def kMatch (k l : Str) : Bool := (k ++ [':']).isPrefixOf (strip l)

/-- The line scan of `WorkflowState.set` (state_manager.py 144-154):
rewrite the first line whose stripped content starts with `"key:"`,
else append a fresh `"key: value"` line. -/
def setLines (k v : Str) : List Str → List Str
  | [] => [mkKV k v]
  | l :: rest =>
    if kMatch k l then rewriteLine k v l :: rest
    else l :: setLines k v rest

/-- `WorkflowState.set` (state_manager.py 142-154): update the mapping
and rewrite/append in the line list.  Callers pass values already
rendered by `str(...)` (`intToStr` for integers). -/
def WS.set (st : WS) (k v : Str) : WS :=
  ⟨setLines k v st.lines, dictSet st.data k v⟩

/-- `WorkflowState.save` (state_manager.py 156-158): the document content
written back, `"\n".join(lines) + "\n"`. -/
def saveContent (st : WS) : Str := joinNl st.lines

/-! ### Fixed configuration (state_manager.py 9-19) -/

def sEngineer : Str := s2l ("Engineer")
def sResearcher : Str := s2l ("Researcher")
def sCoder : Str := s2l ("Coder")
def sValidator : Str := s2l ("Validator")
def sDeployer : Str := s2l ("Deployer")
def sCurrentStage : Str := s2l ("CurrentStage")
def sRequirementPointer : Str := s2l ("RequirementPointer")
def sLastCommitSHA : Str := s2l ("LastCommitSHA")

/-- `STAGES` (state_manager.py 12). -/
def STAGES : List Str := [sEngineer, sResearcher, sCoder, sValidator, sDeployer]

/-- `DELIVERABLE_PATHS` (state_manager.py 13-19). -/
def DELIVERABLE_PATHS : List (Str × Str) :=
  [(sEngineer, s2l ("deliverables/engineering")),
   (sCoder, s2l ("deliverables/coding")),
   (sResearcher, s2l ("deliverables/Researcher")),
   (sValidator, s2l ("deliverables/testing")),
   (sDeployer, s2l ("deliverables/deployment"))]

/-- `dict.get` with a possibly-`None` key (`DELIVERABLE_PATHS.get(stage)`). -/
def dGetOpt (d : List (Str × Str)) : Option Str → Option Str
  | none => none
  | some k => dGet d k

/-- `STAGES.index(stage)` (`list.index` raises `ValueError`, hence `none`,
when the stage is `None` or not in the list). -/
def stagesIndex : Option Str → Option Nat
  | none => none
  | some s => STAGES.findIdx? (fun t => t = s)

/-! ### The external collaborators

Read-only queries to version control, the filesystem and the test runner,
as consumed by the code under verification.  Each field is the observable
result of one collaborator call. -/

structure Env where
  /-- stdout of `git status --porcelain` (git_handler.py 9-17). -/
  statusPorcelain : Str
  /-- `git rev-parse HEAD` (git_handler.py `get_current_commit_sha`, 19-21). -/
  headCommit : Str
  /-- `git rev-parse master` (git_handler.py `get_latest_commit_hash`,
  109-114): `none` when the command fails. -/
  latestCommit : Option Str
  /-- stdout of `git ls-remote --tags origin` (git_handler.py 182-201):
  `none` when the command returns non-zero or raises. -/
  remoteLs : Option Str
  /-- stdout of `git tag --points-at <commit>` (git_handler.py 203-213):
  `none` on `CalledProcessError`. -/
  localLs : Option Str → Option Str
  /-- `os.path.exists`. -/
  pathExists : Str → Bool
  /-- `os.listdir(path)` non-empty. -/
  dirNonEmpty : Str → Bool
  /-- `os.access("./venv/bin/pytest", os.X_OK)` (state_manager.py 230-233). -/
  pytestAccessOk : Bool
  /-- `./venv/bin/pytest tests` exited 0 (state_manager.py 235-249). -/
  pytestRunOk : Bool
  /-- `venv/bin/python -m pytest` exited 0 (state_manager.py 62-68). -/
  venvPytestOk : Bool
  /-- Modelled from the spec: `git_handler.get_diff(last, current, "src/")`
  is called by `StateManager._validate_stage` (state_manager.py 214) but is
  absent from git_handler.py; the spec's version-control collaborator (§6)
  provides commit-range diffs, modelled as this opaque query. -/
  diffSrc : Option Str → Option Str → Str
  /-- stdout of `git diff --shortstat <last> <current>` (git_handler.py
  46-48): `none` on `CalledProcessError`. -/
  shortstat : Str → Str → Option Str
  /-- Modelled from the spec: `git_handler.get_latest_commit_sha` is called
  by `WorkflowManager._validate_stage` (state_manager.py 73) but is absent
  from git_handler.py; the spec's collaborator provides the current commit
  identifier (§6). -/
  latestCommitSha : Str
  /-- Modelled from the spec: `git_handler.get_remote_tags_for_commit` is
  called by `WorkflowManager._validate_stage` (state_manager.py 74) but is
  absent from git_handler.py; the spec's collaborator provides the remote
  tags pointing at a commit (§6), an empty list when none are found or the
  remote is unavailable. -/
  remoteTagsForCommit : Str → List Str
  /-- `datetime.now(timezone.utc).strftime("%Y-%m-%d %H:%M:%S UTC")`
  (state_manager.py 288): a fixed-format timestamp, never containing a
  line break. -/
  now : Str

/-- The mutable files the engine touches. -/
structure World where
  /-- Content of `docs/WORKFLOW_MASTER.md` (the state document). -/
  masterDoc : Str
  /-- Lines of `logs/approvals.log` (append-only). -/
  approvalLog : List Str
  /-- Content of `docs/PROJECT_REQUIREMENTS.md`, `none` when absent. -/
  requirementsDoc : Option Str
  /-- Content of the `LAST_COMMIT_FILE` tracking file, `none` when absent. -/
  lastCommitFile : Option Str
deriving DecidableEq, Repr

/-! ### git_handler embeddings -/

/-- `git_handler.is_working_directory_clean` (git_handler.py 9-17): stdout
of `git status --porcelain`, stripped, must be empty.  Defined in the
source but never called by either `approve` path. -/
def isWorkingDirectoryClean (env : Env) : Bool := strip env.statusPorcelain = []

/-- `git_handler.get_remote_tags_with_commits` (the later definition,
git_handler.py 182-201, which shadows the one at 116-136): parse
`git ls-remote --tags origin` output into a tag → commit mapping; any
failure, and empty output, yield the empty mapping. -/
def getRemoteTagsWithCommits (env : Env) : List (Str × Str) :=
  match env.remoteLs with
  | none => []
  | some out =>
    let o := strip out
    if o = [] then []
    else (splitChar '\n' o).foldl (fun tags line =>
      match splitChar '\t' line with
      | [sha, ref] =>
        let tag := (splitChar '/' ref).getLastD []
        if (s2l ("^\x7b\x7d")).isSuffixOf tag then tags else dictSet tags tag sha
      | _ => tags) []

/-- `git_handler.get_local_tags_for_commit` (git_handler.py 203-213):
strip, split on newlines, drop empty entries; `[]` on command failure. -/
def getLocalTagsForCommit (env : Env) (commit : Option Str) : List Str :=
  match env.localLs commit with
  | none => []
  | some out => (splitChar '\n' (strip out)).filter (fun t => t ≠ [])

/-- Change statistics record returned by `get_commit_stats`. -/
structure CommitStats where
  filesChanged : Int
  insertions : Int
  deletions : Int
deriving DecidableEq, Repr

/-- Python `s.split()` with no argument: split on whitespace runs,
producing no empty tokens. -/
def wsTokens : Str → Str → List Str
  | [], acc => if acc = [] then [] else [acc.reverse]
  | c :: rest, acc =>
    if isPySpace c then
      if acc = [] then wsTokens rest [] else acc.reverse :: wsTokens rest []
    else wsTokens rest (c :: acc)

/-- One step of the `--shortstat` parsing loop (git_handler.py 55-61);
`none` models an uncaught `IndexError`/`ValueError` inside the loop. -/
def shortstatStep (acc : CommitStats) (part : Str) : Option CommitStats :=
  match wsTokens part [] with
  | [] => none
  | tok :: _ =>
    if hasSub (s2l ("file changed")) part || hasSub (s2l ("files changed")) part then
      (pyInt tok).map (fun n => { acc with filesChanged := n })
    else if hasSub (s2l ("insertion")) part then
      (pyInt tok).map (fun n => { acc with insertions := n })
    else if hasSub (s2l ("deletion")) part then
      (pyInt tok).map (fun n => { acc with deletions := n })
    else some acc

/-- Split on the two-character separator `", "` (Python
`diff_output.strip().split(', ')`). -/
def splitCommaSp : Str → Str → List Str
  | [], acc => [acc.reverse]
  | ',' :: ' ' :: rest, acc => acc.reverse :: splitCommaSp rest []
  | c :: rest, acc => splitCommaSp rest (c :: acc)

/-- `git_handler.get_commit_stats` (git_handler.py 34-65): `none` when the
tracking file is absent or the diff command fails (a parse exception,
which Python would not catch, is conflated with that `none`); zero stats
when the tracked and current commits coincide. -/
def getCommitStats (env : Env) (w : World) : Option CommitStats :=
  match w.lastCommitFile with
  | none => none
  | some content =>
    let last := strip content
    if last = env.headCommit then some ⟨0, 0, 0⟩
    else match env.shortstat last env.headCommit with
    | none => none
    | some out =>
      (splitCommaSp (strip out) []).foldlM shortstatStep ⟨0, 0, 0⟩

/-! ### Stage validation, cycle completion and the two approve engines -/

/-- Stage-admission failure sites of the two `_validate_stage` methods;
each constructor is one `sys.exit(1)` site and carries the diagnostic the
source prints there.  `UntaggedRemote` and `UntaggedLocal` are the two
"has not been tagged" failures of the Release stage (state_manager.py
259 and 268). -/
inductive VErr where
  | DeliverableMissing
  | NoNewCommits
  | NoMeaningfulChange
  | NoTestsDir
  | PytestNotExecutable
  | TestFailure
  | UntaggedRemote
  | UntaggedLocal
deriving DecidableEq, Repr

/-- How an `approve` invocation terminated early: a validation
`sys.exit(1)` or an uncaught Python exception. -/
inductive ExitReason where
  | failed (e : VErr)
  | crashed
deriving DecidableEq, Repr

/-- Observable phases of an `approve` invocation, recorded in source
order: stage validation, in-memory mutation (including, on the terminal
stage, requirement-cycle completion), the state document `save`, and the
post-transition side effects. -/
inductive Ev where
  | validate
  | mutate
  | save
  | post
deriving DecidableEq, Repr

/-- The result of one `approve` invocation: how it exited, the resulting
files, the final in-memory state (on success) and the phase trace. -/
structure Outcome where
  exit : Option ExitReason
  world : World
  finalState : Option WS
  trace : List Ev
deriving DecidableEq, Repr

/-- How one run of a `_validate_stage` method ends: admission, a
`sys.exit(1)` failure site, or an uncaught Python exception raised
inside validation. -/
inductive VOut where
  | ok
  | fail (e : VErr)
  | crash
deriving DecidableEq, Repr

/-- Python tuple-unpacking `tag, tag_commit = s` of a STRING `s`:
iterating a string yields its single-character strings, so the unpack
succeeds exactly when `s` has length 2 and then binds the two
one-character strings; any other length raises `ValueError`. -/
def unpack2 (s : Str) : Option (Str × Str) :=
  match s with
  | [a, b] => some ([a], [b])
  | _ => none

/-- The comprehension `[... for tag, tag_commit in remote_tags]` where
`remote_tags` is a dict: iteration is over the KEYS (the tag-name
strings), each unpacked with `unpack2`; the whole comprehension raises
(`none`) as soon as any tag name does not have exactly two characters. -/
def unpackAll : List Str → Option (List (Str × Str))
  | [] => some []
  | k :: rest =>
    match unpack2 k, unpackAll rest with
    | some p, some ps => some (p :: ps)
    | _, _ => none

/-- `StateManager._validate_stage` (state_manager.py 197-275): the
generic deliverable check, then the Coder, Validator and Deployer rules.
Every branch is read-only.  In the Deployer branch, lines 257 and 262
iterate the `remote_tags` DICT directly — `for tag, tag_commit in
remote_tags` walks the tag-name keys and unpacks each name string — so
with a non-empty mapping the comprehension raises `ValueError` unless
every tag name has exactly two characters, and the "tagged commits" it
otherwise builds are the tag names' second characters, never the commit
SHAs the mapping stores. -/
def smValidateStage (env : Env) (st : WS) : VOut :=
  let stage := st.get sCurrentStage
  match dGetOpt DELIVERABLE_PATHS stage with
  | none => .fail .DeliverableMissing
  | some path =>
    if ¬ (env.pathExists path && env.dirNonEmpty path) then .fail .DeliverableMissing
    else if stage = some sCoder then
      let last := st.get sLastCommitSHA
      if last = env.latestCommit then .fail .NoNewCommits
      else if strip (env.diffSrc last env.latestCommit) = [] then
        .fail .NoMeaningfulChange
      else .ok
    else if stage = some sValidator then
      if ¬ (env.pathExists (s2l ("tests")) && env.dirNonEmpty (s2l ("tests"))) then
        .fail .NoTestsDir
      else if ¬ env.pytestAccessOk then .fail .PytestNotExecutable
      else if ¬ env.pytestRunOk then .fail .TestFailure
      else .ok
    else if stage = some sDeployer then
      let remote := getRemoteTagsWithCommits env
      if remote ≠ [] then
        match unpackAll (remote.map Prod.fst) with
        | none => .crash
        | some pairs =>
          if (match env.latestCommit with
              | some c => (pairs.map Prod.snd).contains c
              | none => false) then .ok
          else .fail .UntaggedRemote
      else
        if getLocalTagsForCommit env env.latestCommit = [] then .fail .UntaggedLocal
        else .ok
    else .ok

/-- The approval-log line `f"Requirement {req_id} approved at {timestamp}"`
(state_manager.py 290). -/
def logLine (req : Int) (ts : Str) : Str :=
  s2l ("Requirement ") ++ intToStr req ++ s2l (" approved at ") ++ ts

/-- The checklist rewrite of `_complete_requirement_cycle` (state_manager.py
293-301): flip the first `"[ ]"` of the first line containing both
`"ID <req>"` and `"[ ]"`, rewriting the document; leave it unchanged when
no line matches. -/
def updateChecklist (req : Int) (doc : Str) : Str :=
  let ls := splitlines doc
  match ls.findIdx? (fun l =>
      hasSub (s2l ("ID ") ++ intToStr req) l && hasSub (s2l ("[ ]")) l) with
  | none => doc
  | some i => joinNl (ls.set i (replOnce (s2l ("[ ]")) (s2l ("[x]")) (ls.getD i [])))

/-- `_complete_requirement_cycle` (identical in both classes,
state_manager.py 96-117 and 284-305): read the pointer with `int(...)`
(`none` models the uncaught exception when it is missing or non-numeric),
append one approval-log line, update the checklist document when present,
and `set` the incremented pointer (not yet persisted). -/
def completeCycle (env : Env) (w : World) (st : WS) : Option (World × WS) :=
  match pyIntOpt (st.get sRequirementPointer) with
  | none => none
  | some req =>
    let w1 := { w with approvalLog := w.approvalLog ++ [logLine req env.now] }
    let w2 := match w1.requirementsDoc with
      | none => w1
      | some doc => { w1 with requirementsDoc := some (updateChecklist req doc) }
    some (w2, st.set sRequirementPointer (intToStr (req + 1)))

/-- `_run_post_transition_actions` (state_manager.py 280-282 and 92-94)
together with `git_handler.save_current_commit_sha` (git_handler.py
67-73): when the inspected stage is Coder, write the current `HEAD`
commit into the `LAST_COMMIT_FILE` tracking file. -/
def postActions (env : Env) (stage : Option Str) (w : World) : World :=
  if stage = some sCoder then { w with lastCommitFile := some env.headCommit } else w

/-- `StateManager.approve` (state_manager.py 179-195): validate, compute
the transition (running requirement-cycle completion first on the
terminal stage), `save`, then post-transition side effects.
`self.current_stage` is never reassigned here, so the post-transition
check sees the stage being left.  (`StateManager.__init__`'s
`git_handler.get_repo()` call is a collaborator handle acquisition,
modelled as succeeding; the handle is never used.) -/
def smApprove (env : Env) (w : World) : Outcome :=
  let st := mkState w.masterDoc
  let stage := st.get sCurrentStage
  match smValidateStage env st with
  | .fail e => ⟨some (.failed e), w, none, [Ev.validate]⟩
  | .crash => ⟨some .crashed, w, none, [Ev.validate]⟩
  | .ok =>
    match stagesIndex stage with
    | none => ⟨some .crashed, w, none, [Ev.validate]⟩
    | some i =>
      if i = STAGES.length - 1 then
        match completeCycle env w st with
        | none => ⟨some .crashed, w, none, [Ev.validate]⟩
        | some (w1, st1) =>
          let st2 := st1.set sCurrentStage (STAGES.getD 0 [])
          let w2 := { w1 with masterDoc := saveContent st2 }
          let w3 := postActions env stage w2
          ⟨none, w3, some st2, [Ev.validate, Ev.mutate, Ev.save, Ev.post]⟩
      else
        let st2 := st.set sCurrentStage (STAGES.getD (i + 1) [])
        let w2 := { w with masterDoc := saveContent st2 }
        let w3 := postActions env stage w2
        ⟨none, w3, some st2, [Ev.validate, Ev.mutate, Ev.save, Ev.post]⟩

/-- The stage successor computed inside `StateManager.approve`
(state_manager.py 183-190): index in `STAGES`, wrap the last to the
first, else the next entry. -/
def smNextStage (s : Str) : Option Str :=
  match stagesIndex (some s) with
  | none => none
  | some i =>
    if i = STAGES.length - 1 then some (STAGES.getD 0 [])
    else some (STAGES.getD (i + 1) [])

/-- The stage successor computed by
`WorkflowManager._transition_to_next_stage` (state_manager.py 47-55):
`STAGES.index` first (a crash when the stage is unknown), then the
`== "Deployer"` test selects the wrap-around. -/
def wmNextStage (s : Str) : Option Str :=
  match stagesIndex (some s) with
  | none => none
  | some i =>
    if s = sDeployer then some sEngineer
    else some (STAGES.getD (i + 1) [])

/-- `WorkflowManager._validate_stage` (state_manager.py 57-87): only the
Validator and Deployer stages are checked; the Deployer rule consults the
remote tags for the latest commit and falls back to a local tag lookup
when that query returns nothing. -/
def wmValidateStage (env : Env) (stage : Option Str) : VOut :=
  if stage = some sValidator then
    if ¬ env.venvPytestOk then .fail .TestFailure else .ok
  else if stage = some sDeployer then
    if env.remoteTagsForCommit env.latestCommitSha ≠ [] then .ok
    else if getLocalTagsForCommit env (some env.latestCommitSha) = [] then
      .fail .UntaggedLocal
    else .ok
  else .ok

/-- `WorkflowManager.approve` (state_manager.py 32-39): validate, then
`_transition_to_next_stage` (state_manager.py 47-55, which also
reassigns `self.current_stage`), then `_run_post_transition_actions`
(which therefore inspects the NEW stage), and only then `save`. -/
def wmApprove (env : Env) (w : World) : Outcome :=
  let st := mkState w.masterDoc
  let stage := st.get sCurrentStage
  match wmValidateStage env stage with
  | .fail e => ⟨some (.failed e), w, none, [Ev.validate]⟩
  | .crash => ⟨some .crashed, w, none, [Ev.validate]⟩
  | .ok =>
    match stagesIndex stage with
    | none => ⟨some .crashed, w, none, [Ev.validate]⟩
    | some i =>
      if stage = some sDeployer then
        match completeCycle env w st with
        | none => ⟨some .crashed, w, none, [Ev.validate]⟩
        | some (w1, st1) =>
          let st2 := st1.set sCurrentStage sEngineer
          let w2 := postActions env (some sEngineer) w1
          let w3 := { w2 with masterDoc := saveContent st2 }
          ⟨none, w3, some st2, [Ev.validate, Ev.mutate, Ev.post, Ev.save]⟩
      else
        let next := STAGES.getD (i + 1) []
        let st2 := st.set sCurrentStage next
        let w2 := postActions env (some next) w
        let w3 := { w2 with masterDoc := saveContent st2 }
        ⟨none, w3, some st2, [Ev.validate, Ev.mutate, Ev.post, Ev.save]⟩

/-! ### Concrete scenarios used by counterexamples and witnesses -/

/-- A benign collaborator environment: clean tree, populated deliverable
directories, passing tests, a fresh commit `bbb` after the recorded
`aaa`, whose `--shortstat` against `aaa` is 2 insertions and 0 deletions,
an unreachable remote and a local tag `v1.0` on every commit. -/
def envBase : Env := {
  statusPorcelain := []
  headCommit := s2l ("bbb")
  latestCommit := some (s2l ("bbb"))
  remoteLs := none
  localLs := fun _ => some (s2l ("v1.0"))
  pathExists := fun _ => true
  dirNonEmpty := fun _ => true
  pytestAccessOk := true
  pytestRunOk := true
  venvPytestOk := true
  diffSrc := fun _ _ => s2l ("+x")
  shortstat := fun _ _ => some (s2l (" 1 file changed, 2 insertions(+)"))
  latestCommitSha := s2l ("bbb")
  remoteTagsForCommit := fun _ => []
  now := s2l ("2026-10-12 00:00:00 UTC")
}

/-- `envBase` with a successful but empty remote tag query: the remote is
reachable (`git ls-remote` exits 0) and reports no tags at all. -/
def envRemoteEmpty : Env := { envBase with remoteLs := some [] }

/-- `envBase` with a dirty working tree (`git status --porcelain` output
non-empty). -/
def envDirty : Env := { envBase with statusPorcelain := s2l (" M foo.py") }

/-- State document at the Implementation (Coder) stage with recorded
commit `aaa`; the tracking file also holds `aaa`. -/
def wCoder : World :=
  ⟨s2l ("CurrentStage: Coder\nLastCommitSHA: aaa\nRequirementPointer: 1\n"),
   [], none, some (s2l ("aaa"))⟩

/-- State document at the terminal (Deployer) stage, pointer 3, one old
approval-log line, and a checklist containing the unchecked entry 3. -/
def wDeployer : World :=
  ⟨s2l ("CurrentStage: Deployer\nRequirementPointer: 3\n"),
   [s2l ("old")], some (s2l ("- [ ] ID 3 x\n")), none⟩

/-- State document at the first (Engineer) stage. -/
def wEngineer : World :=
  ⟨s2l ("CurrentStage: Engineer\nRequirementPointer: 1\n"), [], none, none⟩

/-- State document at the Research (Researcher) stage. -/
def wResearcher : World :=
  ⟨s2l ("CurrentStage: Researcher\nRequirementPointer: 1\n"), [], none, none⟩

/-- One step of `_parse`'s dictionary update, viewed through lookup of a
fixed key `k`. -/
def lpStep (k : Str) (acc : Option Str) (l : Str) : Option Str :=
  match parseLine l with
  | some kv => if kv.1 = k then some kv.2 else acc
  | none => acc

/-- The value `_parse` leaves for key `k`: the value of the last line that
parses to `k`. -/
def lastParse (ls : List Str) (k : Str) : Option Str := ls.foldl (lpStep k) none

/-- A line is break-free: it contains no line-boundary character. -/
def lineOk (l : Str) : Prop := ∀ c ∈ l, isBreakCh c = false

/-- A well-formed state document: non-empty, terminated by a newline, and
using `\n` as its only line-boundary character. -/
def wellFormedDoc (content : Str) : Prop :=
  content ≠ [] ∧ content.getLast? = some '\n' ∧
    ∀ c ∈ content, isBreakCh c = true → c = '\n'

instance (l : Str) : Decidable (lineOk l) := by unfold lineOk; infer_instance

instance (content : Str) : Decidable (wellFormedDoc content) := by
  unfold wellFormedDoc; infer_instance

/-- An identifier-like key: non-empty, not bullet-initial, and free of
`:`, `#`, whitespace and line breaks. -/
def cleanKey (k : Str) : Bool :=
  k ≠ [] && k.head? ≠ some '-' &&
    k.all (fun c => c ≠ ':' && c ≠ '#' && ¬ isBreakCh c && ¬ isPySpace c)

/-- A value that survives the store's round trip verbatim: free of `#`
and line breaks, with no leading or trailing whitespace. -/
def cleanVal (v : Str) : Bool :=
  (match v.head? with | some c => ¬ isPySpace c | none => true) &&
  (match v.getLast? with | some c => ¬ isPySpace c | none => true) &&
  v.all (fun c => c ≠ '#' && ¬ isBreakCh c)

/-- Decimal value of a digit string. -/
def digitsVal (s : Str) : Nat := s.foldl (fun acc c => 10 * acc + digitVal c) 0

/-- Does this line parse to key `k`? -/
def parsesToKey (k l : Str) : Bool :=
  match parseLine l with
  | some kv => kv.1 = k
  | none => false

/-- `envBase` with a reachable remote whose only tag points at commit
`abc`, which is not the latest commit `bbb`. -/
def envRemoteMiss : Env :=
  { envBase with remoteLs := some (s2l ("abc\trefs/tags/v1")) }

/-- `envBase` with a reachable remote whose only tag is named `v1.0` — a
tag name of length 4, which the Deployer branch's dict-key unpacking
cannot destructure into two variables. -/
def envRemoteCrash : Env :=
  { envBase with remoteLs := some (s2l ("abc\trefs/tags/v1.0")) }

/-! ### Helper lemmas: dictionaries and parsing -/

theorem dGet_dictSet_self (d : List (Str × Str)) (k v : Str) :
    dGet (dictSet d k v) k = some v := by
  induction d with
  | nil => simp [dictSet, dGet]
  | cons kv rest ih =>
    obtain ⟨k', v'⟩ := kv
    by_cases h : k' = k <;> simp [dictSet, dGet, h, ih]

theorem dGet_dictSet_other (d : List (Str × Str)) (k v k' : Str) (h : k' ≠ k) :
    dGet (dictSet d k v) k' = dGet d k' := by
  induction d with
  | nil => simp [dictSet, dGet, Ne.symm h]
  | cons kv rest ih =>
    obtain ⟨k0, v0⟩ := kv
    by_cases h0 : k0 = k
    · subst h0
      simp [dictSet, dGet, Ne.symm h]
    · simp only [dictSet, if_neg h0, dGet]
      by_cases h1 : k0 = k' <;> simp [h1, ih]



theorem dGet_foldl_parse (ls : List Str) (d : List (Str × Str)) (k : Str) :
    dGet (ls.foldl paStep d) k = ls.foldl (lpStep k) (dGet d k) := by
  induction ls generalizing d with
  | nil => rfl
  | cons l rest ih =>
    simp only [List.foldl_cons]
    rcases hp : parseLine l with _ | ⟨k0, v0⟩
    · simp [paStep, lpStep, hp, ih]
    · by_cases hk : k0 = k
      · subst hk
        simp [paStep, lpStep, hp, ih, dGet_dictSet_self]
      · simp [paStep, lpStep, hp, hk, ih, dGet_dictSet_other d k0 v0 k (Ne.symm hk)]

theorem mkState_get (content : Str) (k : Str) :
    (mkState content).get k = lastParse (splitlines content) k := by
  simp only [mkState, WS.get, parseAll, lastParse]
  have h := dGet_foldl_parse (splitlines content) [] k
  simpa [dGet] using h

/-- A suffix in which no line parses to key `k` does not move the
last-parsed value for `k`. -/
theorem foldl_lpStep_of_no_k (ls : List Str) (k : Str) (a : Option Str)
    (h : ∀ l ∈ ls, ∀ v, parseLine l ≠ some (k, v)) :
    ls.foldl (lpStep k) a = a := by
  induction ls generalizing a with
  | nil => rfl
  | cons l rest ih =>
    have hstep : lpStep k a l = a := by
      unfold lpStep
      rcases hp : parseLine l with _ | ⟨k0, v0⟩
      · rfl
      · have : k0 ≠ k := by
          intro hkk
          exact h l (by simp) v0 (by rw [hp, hkk])
        simp [this]
    simp only [List.foldl_cons, hstep]
    exact ih a (fun l hl v => h l (List.mem_cons_of_mem _ hl) v)

/-! ### Helper lemmas: the splitlines / join round trip -/



theorem normCRLF_eq_self : ∀ (s : Str), (∀ c ∈ s, c ≠ '\r') → normCRLF s = s
  | [], _ => rfl
  | [_], _ => rfl
  | c :: c' :: rest, h => by
    have hc : c ≠ '\r' := h c (by simp)
    have ih := normCRLF_eq_self (c' :: rest)
      (fun x hx => h x (List.mem_cons_of_mem _ hx))
    rw [normCRLF, if_neg (fun hand => hc hand.1), ih]

theorem slGo_ne_nil (s acc : Str) : slGo s acc ≠ [] := by
  cases s with
  | nil => simp [slGo]
  | cons c rest =>
    by_cases hc : isBreakCh c <;> simp [slGo, hc]
    exact slGo_ne_nil rest (c :: acc)

theorem joinNl_ne_nil (ls : List Str) : joinNl ls ≠ [] := by
  match ls with
  | [] => simp [joinNl]
  | [l] => simp [joinNl]
  | l :: l' :: rest => simp [joinNl]

theorem joinNl_cons (x : Str) (L : List Str) (h : L ≠ []) :
    joinNl (x :: L) = x ++ '\n' :: joinNl L := by
  match L with
  | [] => exact absurd rfl h
  | l :: rest => rw [joinNl]

theorem slGo_cons_break (c r : Char) (rs acc : Str) (hc : isBreakCh c = true) :
    slGo (c :: r :: rs) acc = acc.reverse :: slGo (r :: rs) [] := by
  simp [slGo, hc]

theorem slGo_append_ok (l : Str) :
    ∀ (s acc : Str), lineOk l → slGo (l ++ s) acc = slGo s (l.reverse ++ acc) := by
  induction l with
  | nil => intro s acc _; simp
  | cons c cs ih =>
    intro s acc h
    have hc : isBreakCh c = false := h c (by simp)
    simp only [List.cons_append, slGo, hc, Bool.false_eq_true, if_false,
      List.append_eq]
    rw [ih s (c :: acc) (fun x hx => h x (List.mem_cons_of_mem _ hx))]
    simp

theorem joinNl_slGo (s : Str) :
    ∀ (acc : Str), s ≠ [] → s.getLast? = some '\n' →
      (∀ c ∈ s, isBreakCh c = true → c = '\n') →
      joinNl (slGo s acc) = acc.reverse ++ s := by
  induction s with
  | nil => intro acc hne _ _; exact absurd rfl hne
  | cons c rest ih =>
    intro acc _ hlast hbr
    by_cases hc : isBreakCh c = true
    · have hcn : c = '\n' := hbr c (by simp) hc
      subst hcn
      cases rest with
      | nil => simp [slGo, joinNl]
      | cons r rs =>
        have hrne : (r :: rs) ≠ ([] : Str) := by simp
        have hrl : (r :: rs).getLast? = some '\n' := by
          rw [List.getLast?_cons] at hlast
          obtain ⟨y, hy⟩ := Option.isSome_iff_exists.1
            (List.getLast?_isSome.2 hrne)
          rw [hy] at hlast ⊢
          simpa using hlast
        have hrbr : ∀ x ∈ r :: rs, isBreakCh x = true → x = '\n' :=
          fun x hx => hbr x (List.mem_cons_of_mem _ hx)
        rw [slGo_cons_break _ _ _ _ hc,
          joinNl_cons _ _ (slGo_ne_nil _ _), ih [] hrne hrl hrbr]
        simp
    · have hrne : rest ≠ [] := by
        intro hr
        subst hr
        simp at hlast
        subst hlast
        exact hc (by decide)
      have hrl : rest.getLast? = some '\n' := by
        rw [List.getLast?_cons] at hlast
        obtain ⟨y, hy⟩ := Option.isSome_iff_exists.1 (List.getLast?_isSome.2 hrne)
        rw [hy] at hlast ⊢
        simpa using hlast
      simp only [slGo, hc, Bool.false_eq_true, if_false]
      rw [ih (c :: acc) hrne hrl (fun x hx => hbr x (List.mem_cons_of_mem _ hx))]
      simp

theorem wellFormed_no_cr (content : Str) (h : wellFormedDoc content) :
    ∀ c ∈ content, c ≠ '\r' := by
  intro c hc hr
  subst hr
  have := h.2.2 '\r' hc (by decide)
  exact absurd this (by decide)

theorem joinNl_splitlines (content : Str) (h : wellFormedDoc content) :
    joinNl (splitlines content) = content := by
  obtain ⟨hne, hlast, hbr⟩ := h
  obtain ⟨c, rest, rfl⟩ := List.exists_cons_of_ne_nil hne
  have hs : splitlines (c :: rest) = slGo (c :: rest) [] := by
    rw [splitlines, normCRLF_eq_self _ (wellFormed_no_cr _ ⟨hne, hlast, hbr⟩)]
  rw [hs, joinNl_slGo (c :: rest) [] (by simp) hlast hbr]
  simp

theorem mem_joinNl (ls : List Str) :
    ∀ c ∈ joinNl ls, c = '\n' ∨ ∃ l ∈ ls, c ∈ l := by
  match ls with
  | [] => intro c hc; simp [joinNl] at hc; exact Or.inl hc
  | [l] =>
    intro c hc
    simp [joinNl] at hc
    rcases hc with hc | hc
    · exact Or.inr ⟨l, by simp, hc⟩
    · exact Or.inl hc
  | l :: l' :: rest =>
    intro c hc
    rw [joinNl_cons _ _ (by simp)] at hc
    simp only [List.mem_append, List.mem_cons] at hc
    rcases hc with hc | hc | hc
    · exact Or.inr ⟨l, by simp, hc⟩
    · exact Or.inl hc
    · rcases mem_joinNl (l' :: rest) c hc with h1 | ⟨l0, hl0, hcl0⟩
      · exact Or.inl h1
      · exact Or.inr ⟨l0, List.mem_cons_of_mem _ hl0, hcl0⟩

theorem splitlines_joinNl (ls : List Str) :
    (∀ l ∈ ls, lineOk l) → ls ≠ [] → splitlines (joinNl ls) = ls := by
  intro hok hne
  have hnoR : ∀ c ∈ joinNl ls, c ≠ '\r' := by
    intro c hc hr
    subst hr
    rcases mem_joinNl ls '\r' hc with h1 | ⟨l, hl, hcl⟩
    · exact absurd h1 (by decide)
    · have := hok l hl '\r' hcl
      exact absurd this (by decide)
  have hcore : ∀ (L : List Str), (∀ l ∈ L, lineOk l) → L ≠ [] →
      slGo (joinNl L) [] = L := by
    intro L
    induction L with
    | nil => intro _ hne'; exact absurd rfl hne'
    | cons l rest ihL =>
      intro hokL _
      cases rest with
      | nil =>
        show slGo (l ++ ['\n']) [] = [l]
        rw [slGo_append_ok l ['\n'] [] (hokL l (by simp))]
        simp [slGo, show isBreakCh '\n' = true from by decide]
      | cons l' rs =>
        rw [joinNl_cons _ _ (by simp),
          slGo_append_ok l ('\n' :: joinNl (l' :: rs)) [] (hokL l (by simp))]
        obtain ⟨d, ds, hd⟩ := List.exists_cons_of_ne_nil (joinNl_ne_nil (l' :: rs))
        rw [hd, slGo_cons_break _ _ _ _ (by decide), ← hd,
          ihL (fun x hx => hokL x (List.mem_cons_of_mem _ hx)) (by simp)]
        simp
  have h2 := hcore ls hok hne
  obtain ⟨d, ds, hd⟩ := List.exists_cons_of_ne_nil (joinNl_ne_nil ls)
  rw [hd] at h2
  rw [splitlines, normCRLF_eq_self _ hnoR, hd]
  exact h2

/-! ### Helper lemmas: stripping and canonical line parsing -/

theorem dropWhile_eq_self_of_head (p : Char → Bool) (s : Str)
    (h : ∀ c, s.head? = some c → p c = false) : s.dropWhile p = s := by
  cases s with
  | nil => rfl
  | cons c rest => simp [List.dropWhile_cons, h c rfl]

theorem lstrip_eq_self (s : Str)
    (h : ∀ c, s.head? = some c → isPySpace c = false) : lstrip s = s :=
  dropWhile_eq_self_of_head _ _ h

theorem rstrip_eq_self (s : Str)
    (h : ∀ c, s.getLast? = some c → isPySpace c = false) : rstrip s = s := by
  unfold rstrip
  rw [dropWhile_eq_self_of_head _ _ (fun c hc => h c (by rwa [List.head?_reverse] at hc))]
  exact s.reverse_reverse

theorem strip_eq_self (s : Str)
    (hh : ∀ c, s.head? = some c → isPySpace c = false)
    (hl : ∀ c, s.getLast? = some c → isPySpace c = false) : strip s = s := by
  unfold strip
  rw [lstrip_eq_self s hh, rstrip_eq_self s hl]

theorem lstrip_cons_space (v : Str) : lstrip (' ' :: v) = lstrip v := by
  simp [lstrip, List.dropWhile_cons, isPySpace]

theorem strip_cons_space (v : Str) : strip (' ' :: v) = strip v := by
  unfold strip
  rw [lstrip_cons_space]

theorem rstrip_append_space (s : Str) : rstrip (s ++ [' ']) = rstrip s := by
  unfold rstrip
  rw [List.reverse_append]
  simp [List.dropWhile_cons, isPySpace]

theorem strip_append_space (s : Str) : strip (s ++ [' ']) = strip s := by
  unfold strip
  unfold lstrip
  induction s with
  | nil => simp [List.dropWhile_cons, rstrip_append_space, isPySpace, rstrip]
  | cons c rest ih =>
    by_cases hc : isPySpace c = true
    · simpa [List.dropWhile_cons, hc] using ih
    · simp only [List.cons_append, List.dropWhile_cons, hc]
      simp only [Bool.false_eq_true, if_false]
      exact rstrip_append_space (c :: rest)

theorem mem_strip (s : Str) (c : Char) (h : c ∈ strip s) : c ∈ s := by
  unfold strip rstrip lstrip at h
  have h1 := (List.dropWhile_sublist (l := (List.dropWhile isPySpace s).reverse)
    isPySpace).mem (by simpa using h)
  have h2 := (List.dropWhile_sublist (l := s) isPySpace).mem (by simpa using h1)
  exact h2

theorem takeWhile_append_stop (k : Str) (c : Char) (rest : Str)
    (hk : ∀ x ∈ k, x ≠ c) :
    (k ++ c :: rest).takeWhile (fun x => x ≠ c) = k ∧
    (k ++ c :: rest).dropWhile (fun x => x ≠ c) = c :: rest := by
  induction k with
  | nil => simp [List.takeWhile_cons, List.dropWhile_cons]
  | cons a as ih =>
    have ha : a ≠ c := hk a (by simp)
    have ih2 := ih (fun x hx => hk x (List.mem_cons_of_mem _ hx))
    simp only [List.cons_append, List.takeWhile_cons, List.dropWhile_cons,
      ne_eq, decide_not] at ih2 ⊢
    simp [ha, ih2.1, ih2.2]



theorem cleanKey_facts (k : Str) (h : cleanKey k = true) :
    k ≠ [] ∧ k.head? ≠ some '-' ∧
      ∀ c ∈ k, c ≠ ':' ∧ c ≠ '#' ∧ isBreakCh c = false ∧ isPySpace c = false := by
  unfold cleanKey at h
  simp only [Bool.and_eq_true, List.all_eq_true, decide_eq_true_eq,
    Bool.not_eq_true', ne_eq, decide_not, Bool.not_eq_false'] at h
  obtain ⟨⟨h1, h2⟩, h3⟩ := h
  refine ⟨by simpa using h1, by simpa using h2, fun c hc => ?_⟩
  have h4 := h3 c hc
  simp only [decide_eq_false_iff_not, Bool.not_eq_true] at h4
  exact ⟨h4.1.1.1, h4.1.1.2, h4.1.2, h4.2⟩

theorem cleanVal_facts (v : Str) (h : cleanVal v = true) :
    (∀ c, v.head? = some c → isPySpace c = false) ∧
    (∀ c, v.getLast? = some c → isPySpace c = false) ∧
    ∀ c ∈ v, c ≠ '#' ∧ isBreakCh c = false := by
  unfold cleanVal at h
  simp only [Bool.and_eq_true, List.all_eq_true, decide_eq_true_eq,
    ne_eq, decide_not, Bool.not_eq_true', Bool.not_eq_false'] at h
  obtain ⟨⟨h1, h2⟩, h3⟩ := h
  refine ⟨?_, ?_, fun c hc => ?_⟩
  · intro c hc
    rw [hc] at h1
    simpa using h1
  · intro c hc
    rw [hc] at h2
    simpa using h2
  · have h4 := h3 c hc
    simp only [decide_eq_false_iff_not, Bool.not_eq_true] at h4
    exact ⟨h4.1, h4.2⟩

theorem takeWhile_eq_self_of_all (p : Char → Bool) (s : Str)
    (h : ∀ c ∈ s, p c = true) : s.takeWhile p = s := by
  induction s with
  | nil => rfl
  | cons c rest ih =>
    rw [List.takeWhile_cons, if_pos (h c (by simp)),
      ih (fun x hx => h x (List.mem_cons_of_mem _ hx))]

theorem head_dropWhile_false (p : Char → Bool) (s : Str) :
    ∀ c, (s.dropWhile p).head? = some c → p c = false := by
  induction s with
  | nil => intro c hc; simp at hc
  | cons a rest ih =>
    intro c hc
    rw [List.dropWhile_cons] at hc
    by_cases ha : p a = true
    · rw [if_pos ha] at hc
      exact ih c hc
    · rw [if_neg ha] at hc
      simp at hc
      rw [← hc]
      simpa using ha

theorem strip_getLast_not_space (s : Str) :
    ∀ c, (strip s).getLast? = some c → isPySpace c = false := by
  intro c hc
  unfold strip rstrip at hc
  rw [List.getLast?_eq_head?_reverse, List.reverse_reverse] at hc
  exact head_dropWhile_false isPySpace _ c hc

theorem mem_of_head?_some (s : Str) (c : Char) (h : s.head? = some c) : c ∈ s := by
  cases s with
  | nil => simp at h
  | cons a as =>
    simp at h
    subst h
    simp

theorem mem_of_getLast?_some (s : Str) (c : Char) (h : s.getLast? = some c) :
    c ∈ s := by
  rw [List.getLast?_eq_head?_reverse] at h
  have := mem_of_head?_some _ _ h
  simpa using this

theorem head?_append_left (k t : Str) (h : k ≠ []) : (k ++ t).head? = k.head? := by
  cases k with
  | nil => exact absurd rfl h
  | cons a as => simp

theorem getLast?_append_right (x t : Str) (h : t ≠ []) :
    (x ++ t).getLast? = t.getLast? := by
  rw [List.getLast?_append]
  obtain ⟨y, hy⟩ := Option.isSome_iff_exists.1 (List.getLast?_isSome.2 h)
  rw [hy]
  simp

theorem strip_k_eq (k : Str)
    (hf : ∀ c ∈ k, c ≠ ':' ∧ c ≠ '#' ∧ isBreakCh c = false ∧ isPySpace c = false) :
    strip k = k := by
  apply strip_eq_self
  · intro c hc
    exact (hf c (mem_of_head?_some _ _ hc)).2.2.2
  · intro c hc
    exact (hf c (mem_of_getLast?_some _ _ hc)).2.2.2

theorem parseLine_of_strip (line k t : Str) (hk : cleanKey k = true)
    (hstrip : strip line = k ++ ':' :: t) :
    parseLine line = some (k, strip (t.takeWhile (fun c => c ≠ '#'))) := by
  obtain ⟨hne, hhead, hf⟩ := cleanKey_facts k hk
  have hcol : ∀ x ∈ k, x ≠ ':' := fun x hx => (hf x hx).1
  have htk := takeWhile_append_stop k ':' t hcol
  have hh : (k ++ ':' :: t).head? ≠ some '-' := by
    rw [head?_append_left _ _ hne]
    exact hhead
  unfold parseLine
  rw [hstrip]
  simp only [if_neg hh]
  have hmem : ':' ∈ k ++ ':' :: t := by simp
  rw [if_pos hmem, htk.1, htk.2]
  simp only [List.drop_one, List.tail_cons]
  rw [strip_k_eq k hf]

theorem strip_mkKV (k v : Str) (hk : cleanKey k = true) (hv : cleanVal v = true) :
    strip (mkKV k v) = k ++ ':' :: (if v = [] then [] else ' ' :: v) := by
  obtain ⟨hne, _, hf⟩ := cleanKey_facts k hk
  obtain ⟨hvh, hvl, _⟩ := cleanVal_facts v hv
  have hkh : ∀ (t : Str) (c : Char),
      (k ++ t).head? = some c → isPySpace c = false := by
    intro t c hc
    rw [head?_append_left _ _ hne] at hc
    exact (hf c (mem_of_head?_some _ _ hc)).2.2.2
  by_cases hvv : v = []
  · subst hvv
    have heq : mkKV k [] = (k ++ [':']) ++ [' '] := by simp [mkKV]
    rw [heq, strip_append_space]
    simp only [if_pos rfl]
    apply strip_eq_self
    · intro c hc
      rw [show (k ++ [':']) = k ++ ([':'] : Str) from rfl] at hc
      exact hkh [':'] c hc
    · intro c hc
      rw [getLast?_append_right _ _ (by simp)] at hc
      simp at hc
      subst hc
      decide
  · have heq : mkKV k v = k ++ ':' :: ' ' :: v := by simp [mkKV]
    rw [heq]
    simp only [if_neg hvv]
    apply strip_eq_self
    · intro c hc
      exact hkh _ c hc
    · intro c hc
      rw [getLast?_append_right _ _ (by simp),
        show (':' :: ' ' :: v : Str) = [':', ' '] ++ v from rfl,
        getLast?_append_right _ _ hvv] at hc
      exact hvl c hc

theorem takeWhile_no_hash (v : Str) (hvc : ∀ c ∈ v, c ≠ '#' ∧ isBreakCh c = false) :
    ((' ' :: v : Str).takeWhile (fun c => c ≠ '#')) = ' ' :: v := by
  apply takeWhile_eq_self_of_all
  intro x hx
  simp only [decide_eq_true_eq, ne_eq]
  rcases List.mem_cons.1 hx with h | h
  · subst h; decide
  · exact fun hcon => absurd hcon (hvc x h).1

theorem parseLine_mkKV (k v : Str) (hk : cleanKey k = true) (hv : cleanVal v = true) :
    parseLine (mkKV k v) = some (k, v) := by
  obtain ⟨hvh, hvl, hvc⟩ := cleanVal_facts v hv
  rw [parseLine_of_strip (mkKV k v) k (if v = [] then [] else ' ' :: v) hk
    (strip_mkKV k v hk hv)]
  by_cases hvv : v = []
  · subst hvv
    rfl
  · simp only [if_neg hvv]
    rw [takeWhile_no_hash v hvc, strip_cons_space, strip_eq_self v hvh hvl]

theorem strip_rewriteLine (k v l : Str) (hk : cleanKey k = true)
    (hv : cleanVal v = true) (hhash : '#' ∈ l) :
    strip (rewriteLine k v l) =
      k ++ ':' :: (' ' :: (v ++ ' ' :: '#' ::
        strip ((l.dropWhile (fun c => c ≠ '#')).drop 1))) := by
  obtain ⟨hne, _, hf⟩ := cleanKey_facts k hk
  obtain ⟨hvh, hvl, hvc⟩ := cleanVal_facts v hv
  have heq : rewriteLine k v l =
      k ++ ':' :: (' ' :: (v ++ ' ' :: '#' ::
        strip ((l.dropWhile (fun c => c ≠ '#')).drop 1))) := by
    unfold rewriteLine
    simp [hhash]
  rw [heq]
  apply strip_eq_self
  · intro c hc
    rw [head?_append_left _ _ hne] at hc
    exact (hf c (mem_of_head?_some _ _ hc)).2.2.2
  · intro c hc
    set cs := strip ((l.dropWhile (fun c => c ≠ '#')).drop 1) with hcs
    rw [getLast?_append_right _ _ (by simp),
      show (':' :: ' ' :: (v ++ ' ' :: '#' :: cs) : Str) =
        ([':', ' '] ++ v ++ [' ', '#']) ++ cs from by simp] at hc
    by_cases hcsnil : cs = []
    · rw [hcsnil, List.append_nil, getLast?_append_right _ _ (by simp)] at hc
      simp at hc
      subst hc
      decide
    · rw [getLast?_append_right _ _ hcsnil] at hc
      exact strip_getLast_not_space _ c (by rw [← hcs]; exact hc)

theorem parseLine_rewriteLine (k v l : Str) (hk : cleanKey k = true)
    (hv : cleanVal v = true) :
    parseLine (rewriteLine k v l) = some (k, v) := by
  obtain ⟨hvh, hvl, hvc⟩ := cleanVal_facts v hv
  by_cases hhash : '#' ∈ l
  · rw [parseLine_of_strip (rewriteLine k v l) k
      (' ' :: (v ++ ' ' :: '#' :: strip ((l.dropWhile (fun c => c ≠ '#')).drop 1)))
      hk (strip_rewriteLine k v l hk hv hhash)]
    set cs := strip ((l.dropWhile (fun c => c ≠ '#')).drop 1) with hcs
    have htw : ((' ' :: (v ++ ' ' :: '#' :: cs) : Str).takeWhile
        (fun c => c ≠ '#')) = ' ' :: (v ++ [' ']) := by
      have hsplit : (' ' :: (v ++ ' ' :: '#' :: cs) : Str) =
          (' ' :: (v ++ [' '])) ++ '#' :: cs := by simp
      rw [hsplit]
      have hall : ∀ x ∈ (' ' :: (v ++ [' ']) : Str), x ≠ '#' := by
        intro x hx
        rcases List.mem_cons.1 hx with h | h
        · subst h; decide
        · rcases List.mem_append.1 h with h1 | h1
          · exact (hvc x h1).1
          · simp at h1
            subst h1
            decide
      exact (takeWhile_append_stop _ '#' _ hall).1
    rw [htw, strip_cons_space, strip_append_space, strip_eq_self v hvh hvl]
  · have heq : rewriteLine k v l = mkKV k v := by
      unfold rewriteLine mkKV
      simp [hhash]
    rw [heq]
    exact parseLine_mkKV k v hk hv

theorem lineOk_mkKV (k v : Str) (hk : cleanKey k = true) (hv : cleanVal v = true) :
    lineOk (mkKV k v) := by
  obtain ⟨_, _, hf⟩ := cleanKey_facts k hk
  obtain ⟨_, _, hvc⟩ := cleanVal_facts v hv
  intro c hc
  unfold mkKV at hc
  rcases List.mem_append.1 hc with h | h
  · rcases List.mem_append.1 h with h1 | h1
    · exact (hf c h1).2.2.1
    · simp at h1
      rcases h1 with h1 | h1 <;> (subst h1; decide)
  · exact (hvc c h).2

theorem lineOk_rewriteLine (k v l : Str) (hk : cleanKey k = true)
    (hv : cleanVal v = true) (hl : lineOk l) : lineOk (rewriteLine k v l) := by
  obtain ⟨_, _, hf⟩ := cleanKey_facts k hk
  obtain ⟨_, _, hvc⟩ := cleanVal_facts v hv
  intro c hc
  unfold rewriteLine at hc
  rcases List.mem_append.1 hc with h | h
  · rcases List.mem_append.1 h with h1 | h1
    · rcases List.mem_append.1 h1 with h2 | h2
      · exact (hf c h2).2.2.1
      · simp at h2
        rcases h2 with h2 | h2 <;> (subst h2; decide)
    · exact (hvc c h1).2
  · by_cases hhash : '#' ∈ l
    · simp only [if_pos hhash] at h
      rcases List.mem_append.1 h with h1 | h1
      · simp at h1
        rcases h1 with h1 | h1 <;> (subst h1; decide)
      · have h2 := mem_strip _ c h1
        have h3 := (List.drop_sublist 1 _).mem h2
        have h4 := (List.dropWhile_sublist (l := l) (fun c => c ≠ '#')).mem h3
        exact hl c h4
    · simp [hhash] at h

/-! ### Helper lemmas: the set scan -/

theorem setLines_split (k v : Str) (ls : List Str) :
    ((∀ l ∈ ls, kMatch k l = false) ∧ setLines k v ls = ls ++ [mkKV k v]) ∨
    (∃ i, i < ls.length ∧ kMatch k (ls.getD i []) = true ∧
      (∀ j, j < i → kMatch k (ls.getD j []) = false) ∧
      setLines k v ls = ls.set i (rewriteLine k v (ls.getD i []))) := by
  induction ls with
  | nil => exact Or.inl ⟨by simp, rfl⟩
  | cons l rest ih =>
    by_cases hm : kMatch k l = true
    · refine Or.inr ⟨0, by simp, by simpa using hm, by simp, ?_⟩
      simp only [setLines, if_pos hm, List.set_cons_zero, List.getD_cons_zero]
    · have hm' : kMatch k l = false := by simpa using hm
      rcases ih with ⟨hall, heq⟩ | ⟨i, hi, hmi, hfirst, heq⟩
      · refine Or.inl ⟨?_, ?_⟩
        · intro x hx
          rcases List.mem_cons.1 hx with h | h
          · subst h; exact hm'
          · exact hall x h
        · simp only [setLines, hm', Bool.false_eq_true, if_false, heq,
            List.cons_append]
      · refine Or.inr ⟨i + 1, by simpa using hi, by simpa using hmi, ?_, ?_⟩
        · intro j hj
          cases j with
          | zero => simpa using hm'
          | succ j0 => simpa using hfirst j0 (by omega)
        · simp only [setLines, hm', Bool.false_eq_true, if_false, heq,
            List.set_cons_succ, List.getD_cons_succ]

/-- The last-parse value over a list ending with a line that parses to
`(k, v)` is `v`. -/
theorem lastParse_append_kv (ls : List Str) (k v newline : Str)
    (hp : parseLine newline = some (k, v)) :
    lastParse (ls ++ [newline]) k = some v := by
  unfold lastParse
  rw [List.foldl_append]
  simp [lpStep, hp]

theorem lastParse_set_kv (ls : List Str) (k v newline : Str) (i : Nat)
    (hi : i < ls.length) (hp : parseLine newline = some (k, v))
    (hafter : ∀ j, i < j → j < ls.length → ∀ w,
      parseLine (ls.getD j []) ≠ some (k, w)) :
    lastParse (ls.set i newline) k = some v := by
  rw [List.set_eq_take_append_cons_drop, if_pos hi]
  unfold lastParse
  rw [show (List.take i ls ++ newline :: List.drop (i + 1) ls) =
    (List.take i ls ++ [newline]) ++ List.drop (i + 1) ls from by simp,
    List.foldl_append, List.foldl_append]
  have hmid : List.foldl (lpStep k)
      (List.foldl (lpStep k) none (List.take i ls)) [newline] = some v := by
    simp [lpStep, hp]
  rw [hmid]
  apply foldl_lpStep_of_no_k
  intro l hl w
  obtain ⟨j0, hj0, hl0⟩ := List.mem_iff_getElem.1 hl
  have hlen : j0 < ls.length - (i + 1) := by
    simpa using hj0
  have hgd : ls.getD (i + 1 + j0) [] = l := by
    rw [List.getD_eq_getElem ls [] (by omega), ← List.getElem_drop ls]
    · exact hl0
  exact fun hcon => hafter (i + 1 + j0) (by omega) (by omega) w (by rw [hgd]; exact hcon)

/-! ### Helper lemmas: integer rendering round trip -/

theorem digitChar_spec (d : Nat) (h : d < 10) :
    isDigitCh (digitChar d) = true ∧ digitVal (digitChar d) = d := by
  interval_cases d <;> exact ⟨by decide, by decide⟩

theorem digit_not_space (c : Char) (h : isDigitCh c = true) : isPySpace c = false := by
  cases hsp : isPySpace c with
  | false => rfl
  | true =>
    exfalso
    simp only [isPySpace, Bool.or_eq_true, decide_eq_true_eq] at hsp
    rcases hsp with
      (((((((((((h1 | h1) | h1) | h1) | h1) | h1) | h1) | h1) | h1) | h1) | h1) | h1) <;>
      (subst h1; exact absurd h (by decide))

theorem digit_not_sign (c : Char) (h : isDigitCh c = true) :
    c ≠ '-' ∧ c ≠ '+' := by
  constructor <;> (intro h1; subst h1; exact absurd h (by decide))



theorem natToStrAux_spec : ∀ (fuel n : Nat), n < fuel →
    natToStrAux fuel n ≠ [] ∧ (∀ c ∈ natToStrAux fuel n, isDigitCh c = true) ∧
      digitsVal (natToStrAux fuel n) = n := by
  intro fuel
  induction fuel with
  | zero => intro n hn; omega
  | succ f ih =>
    intro n hn
    by_cases h10 : n < 10
    · refine ⟨by simp [natToStrAux, h10], ?_, ?_⟩
      · intro c hc
        simp [natToStrAux, h10] at hc
        subst hc
        exact (digitChar_spec n h10).1
      · simp [natToStrAux, h10, digitsVal, (digitChar_spec n h10).2]
    · have hdiv : n / 10 < f := by
        have h1 : n / 10 < n := Nat.div_lt_self (by omega) (by omega)
        omega
      obtain ⟨hne, hdig, hval⟩ := ih (n / 10) hdiv
      have hmod := digitChar_spec (n % 10) (Nat.mod_lt n (by omega))
      refine ⟨by simp [natToStrAux, h10], ?_, ?_⟩
      · intro c hc
        simp only [natToStrAux, h10, if_false] at hc
        rcases List.mem_append.1 hc with h1 | h1
        · exact hdig c h1
        · simp at h1
          subst h1
          exact hmod.1
      · simp only [natToStrAux, h10, if_false]
        unfold digitsVal
        rw [List.foldl_append]
        simp only [List.foldl_cons, List.foldl_nil]
        unfold digitsVal at hval
        rw [hval, hmod.2]
        omega

theorem natToStr_spec (n : Nat) :
    natToStr n ≠ [] ∧ (∀ c ∈ natToStr n, isDigitCh c = true) ∧
      digitsVal (natToStr n) = n :=
  natToStrAux_spec (n + 1) n (Nat.lt_succ_self n)

theorem parseDigs_natToStr (n : Nat) : parseDigs (natToStr n) = some n := by
  obtain ⟨hne, hdig, hval⟩ := natToStr_spec n
  unfold parseDigs
  rw [if_pos]
  · unfold digitsVal at hval
    rw [hval]
  · simp only [Bool.and_eq_true, ne_eq, decide_not, Bool.not_eq_false',
      decide_eq_true_eq, List.all_eq_true]
    exact ⟨by simpa using hne, hdig⟩

theorem strip_natToStr (n : Nat) : strip (natToStr n) = natToStr n := by
  obtain ⟨hne, hdig, _⟩ := natToStr_spec n
  apply strip_eq_self
  · intro c hc
    exact digit_not_space c (hdig c (mem_of_head?_some _ _ hc))
  · intro c hc
    exact digit_not_space c (hdig c (mem_of_getLast?_some _ _ hc))

theorem pyInt_natToStr (n : Nat) : pyInt (natToStr n) = some (n : Int) := by
  obtain ⟨hne, hdig, _⟩ := natToStr_spec n
  obtain ⟨c, cs, hcs⟩ := List.exists_cons_of_ne_nil hne
  have hsign := digit_not_sign c (hdig c (by rw [hcs]; simp))
  unfold pyInt
  rw [strip_natToStr, hcs]
  split
  · rename_i ds heq
    injection heq with h1 _
    exact absurd h1 hsign.1
  · rename_i ds heq
    injection heq with h1 _
    exact absurd h1 hsign.2
  · rw [← hcs, parseDigs_natToStr]
    rfl

theorem pyInt_intToStr (i : Int) : pyInt (intToStr i) = some i := by
  by_cases hi : i < 0
  · have hm := natToStr_spec (-i).toNat
    have hstrip : strip ('-' :: natToStr (-i).toNat) = '-' :: natToStr (-i).toNat := by
      apply strip_eq_self
      · intro c hc
        simp at hc
        subst hc
        decide
      · intro c hc
        rw [show ('-' :: natToStr (-i).toNat : Str) =
            ['-'] ++ natToStr (-i).toNat from rfl,
          getLast?_append_right _ _ hm.1] at hc
        exact digit_not_space c (hm.2.1 c (mem_of_getLast?_some _ _ hc))
    unfold intToStr
    rw [if_pos hi]
    unfold pyInt
    rw [hstrip]
    split
    · rename_i ds heq
      injection heq with _ h2
      subst h2
      simp [parseDigs_natToStr]
      omega
    · rename_i ds heq
      injection heq with h1 _
      exact absurd h1 (by decide)
    · rename_i h1 h2
      exact absurd rfl (h1 (natToStr (-i).toNat))
  · unfold intToStr
    rw [if_neg hi, pyInt_natToStr]
    congr 1
    exact Int.toNat_of_nonneg (by omega)



theorem parsesToKey_false (k l : Str) (h : parsesToKey k l = false) :
    ∀ w, parseLine l ≠ some (k, w) := by
  intro w hcon
  unfold parsesToKey at h
  rw [hcon] at h
  simp at h

/-! ### Claim theorems -/

/-- C7: parse→serialize round trip.  For every well-formed state document
(non-empty, newline-terminated, `\n` the only line-boundary character),
loading with `WorkflowState.__init__` and then saving with
`WorkflowState.save` without any `set` reproduces byte-identical content;
and parse → serialize → parse yields the same key-value mapping. -/
theorem C7_roundtrip (content : Str) (h : wellFormedDoc content) :
    saveContent (mkState content) = content ∧
    (mkState (saveContent (mkState content))).data = (mkState content).data := by
  have h1 : saveContent (mkState content) = content := joinNl_splitlines content h
  exact ⟨h1, by rw [h1]⟩

/-- Witness for C7 on a concrete well-formed document. -/
theorem C7_witness :
    wellFormedDoc (s2l ("CurrentStage: Coder\n# note\nRequirementPointer: 3\n")) ∧
    saveContent (mkState (s2l ("CurrentStage: Coder\n# note\nRequirementPointer: 3\n"))) =
      s2l ("CurrentStage: Coder\n# note\nRequirementPointer: 3\n") :=
  ⟨by decide,
   (C7_roundtrip (s2l ("CurrentStage: Coder\n# note\nRequirementPointer: 3\n"))
     (by decide)).1⟩

/-- C8 counterexample: the key `CurrentStage` is present in the loaded
state (its bullet line parses), yet `set` does not rewrite that line — it
appends a duplicate, because the scan strips whitespace but not the
bullet marker. -/
theorem C8_counterexample :
    (mkState (s2l ("- CurrentStage: Coder\n"))).get sCurrentStage = some sCoder ∧
    ((mkState (s2l ("- CurrentStage: Coder\n"))).set sCurrentStage sValidator).lines =
      [s2l ("- CurrentStage: Coder"), s2l ("CurrentStage: Validator")] := by
  decide

/-- C8 (amended): `set` scans for the first line whose whitespace-stripped
content starts with `"key:"` (bullet-prefixed lines never match, even
though parsing accepts them).  When a line matches, exactly that line is
replaced in place — same position, all other lines untouched — by
`"key: value"` plus a normalized `" #comment"` copy of the text after the
line's first `#`; the original indentation, bullet marker and comment
spacing are discarded.  When no line matches (including when the key is
present only via bullet lines), exactly one `"key: value"` line is
appended and nothing else changes. -/
theorem C8_amended (st : WS) (k v : Str) :
    ((∀ l ∈ st.lines, kMatch k l = false) ∧
      (st.set k v).lines = st.lines ++ [mkKV k v]) ∨
    (∃ i, i < st.lines.length ∧ kMatch k (st.lines.getD i []) = true ∧
      (∀ j, j < i → kMatch k (st.lines.getD j []) = false) ∧
      (st.set k v).lines =
        st.lines.set i (rewriteLine k v (st.lines.getD i []))) := by
  simpa [WS.set] using setLines_split k v st.lines

/-- C10 counterexample: `set` then `save` then a fresh load does not
return the value just set when the value contains `#` — the reload drops
the `#` and everything after it. -/
theorem C10_counterexample :
    (mkState (saveContent ((mkState (s2l ("CurrentStage: Coder\n"))).set
      (s2l ("Note")) (s2l ("x #y"))))).get (s2l ("Note")) = some (s2l ("x")) ∧
    s2l ("x") ≠ s2l ("x #y") := by
  decide

/-- C10 (amended): for an identifier-like key (non-empty; no `:`, `#`,
whitespace, line breaks; not bullet-initial) and a value free of `#` and
line breaks with no surrounding whitespace, `set(k, v)` → `save()` →
fresh load yields `get(k) = v`, provided no line after the one `set`
rewrites parses to `k` (vacuously true when `set` appends — in
particular in the bullet-only case, where the appended duplicate wins on
reload because parsing is last-occurrence-wins). -/
theorem C10_amended (st : WS) (k v : Str)
    (hok : ∀ l ∈ st.lines, lineOk l)
    (hk : cleanKey k = true) (hv : cleanVal v = true)
    (hnodup : ∀ i, i < st.lines.length → kMatch k (st.lines.getD i []) = true →
      (∀ j, j < i → kMatch k (st.lines.getD j []) = false) →
      ∀ j, j < st.lines.length → i < j →
        parsesToKey k (st.lines.getD j []) = false) :
    (mkState (saveContent (st.set k v))).get k = some v := by
  have hlines : (st.set k v).lines = setLines k v st.lines := rfl
  rcases setLines_split k v st.lines with ⟨hall, heq⟩ | ⟨i, hi, hmi, hfirst, heq⟩
  · rw [mkState_get, saveContent, hlines, heq, splitlines_joinNl _ ?okA (by simp)]
    case okA =>
      intro l hl
      rcases List.mem_append.1 hl with h1 | h1
      · exact hok l h1
      · simp at h1
        subst h1
        exact lineOk_mkKV k v hk hv
    exact lastParse_append_kv _ _ _ _ (parseLine_mkKV k v hk hv)
  · rw [mkState_get, saveContent, hlines, heq, splitlines_joinNl _ ?okB ?neB]
    case okB =>
      intro l hl
      rcases List.mem_or_eq_of_mem_set hl with h1 | h1
      · exact hok l h1
      · subst h1
        apply lineOk_rewriteLine k v _ hk hv
        apply hok
        rw [List.getD_eq_getElem _ _ hi]
        exact List.getElem_mem _
    case neB =>
      apply List.ne_nil_of_length_pos
      rw [List.length_set]
      omega
    exact lastParse_set_kv st.lines k v _ i hi
      (parseLine_rewriteLine k v _ hk hv)
      (fun j hij hj w => parsesToKey_false k _ (hnodup i hi hmi hfirst j hj hij) w)

/-- Witness for C10 on the bullet-only key: the set appends a duplicate
line and the reload returns the new value. -/
theorem C10_witness :
    (mkState (saveContent ((mkState (s2l ("- K: a\n"))).set
      (s2l ("K")) (s2l ("b"))))).get (s2l ("K")) = some (s2l ("b")) :=
  C10_amended (mkState (s2l ("- K: a\n"))) (s2l ("K")) (s2l ("b"))
    (by decide) (by decide) (by decide) (by decide)

/-! ### Branch-shape lemmas for the two approve engines -/

theorem smApprove_fail (env : Env) (w : World) (e : VErr)
    (hval : smValidateStage env (mkState w.masterDoc) = .fail e) :
    smApprove env w = ⟨some (.failed e), w, none, [Ev.validate]⟩ := by
  simp only [smApprove, hval]

theorem smApprove_vcrash (env : Env) (w : World)
    (hval : smValidateStage env (mkState w.masterDoc) = .crash) :
    smApprove env w = ⟨some .crashed, w, none, [Ev.validate]⟩ := by
  simp only [smApprove, hval]

theorem smApprove_nonterminal (env : Env) (w : World) (i : Nat)
    (hval : smValidateStage env (mkState w.masterDoc) = .ok)
    (hidx : stagesIndex ((mkState w.masterDoc).get sCurrentStage) = some i)
    (hnt : ¬ i = STAGES.length - 1) :
    smApprove env w =
      ⟨none,
       postActions env ((mkState w.masterDoc).get sCurrentStage)
         { w with masterDoc := (saveContent
           ((mkState w.masterDoc).set sCurrentStage (STAGES.getD (i + 1) []))) },
       some ((mkState w.masterDoc).set sCurrentStage (STAGES.getD (i + 1) [])),
       [Ev.validate, Ev.mutate, Ev.save, Ev.post]⟩ := by
  simp only [smApprove, hval, hidx, hnt, if_false]

theorem smApprove_terminal (env : Env) (w : World) (w1 : World) (st1 : WS)
    (hval : smValidateStage env (mkState w.masterDoc) = .ok)
    (hidx : stagesIndex ((mkState w.masterDoc).get sCurrentStage) =
      some (STAGES.length - 1))
    (hcc : completeCycle env w (mkState w.masterDoc) = some (w1, st1)) :
    smApprove env w =
      ⟨none,
       postActions env ((mkState w.masterDoc).get sCurrentStage)
         { w1 with masterDoc := (saveContent
           (st1.set sCurrentStage (STAGES.getD 0 []))) },
       some (st1.set sCurrentStage (STAGES.getD 0 [])),
       [Ev.validate, Ev.mutate, Ev.save, Ev.post]⟩ := by
  simp only [smApprove, hval, hidx, hcc, if_pos]

theorem wmApprove_fail (env : Env) (w : World) (e : VErr)
    (hval : wmValidateStage env ((mkState w.masterDoc).get sCurrentStage) = .fail e) :
    wmApprove env w = ⟨some (.failed e), w, none, [Ev.validate]⟩ := by
  simp only [wmApprove, hval]

theorem wmApprove_nondeployer (env : Env) (w : World) (i : Nat)
    (hval : wmValidateStage env ((mkState w.masterDoc).get sCurrentStage) = .ok)
    (hidx : stagesIndex ((mkState w.masterDoc).get sCurrentStage) = some i)
    (hnd : ¬ (mkState w.masterDoc).get sCurrentStage = some sDeployer) :
    wmApprove env w =
      ⟨none,
       { postActions env (some (STAGES.getD (i + 1) [])) w with
         masterDoc := (saveContent
           ((mkState w.masterDoc).set sCurrentStage (STAGES.getD (i + 1) []))) },
       some ((mkState w.masterDoc).set sCurrentStage (STAGES.getD (i + 1) [])),
       [Ev.validate, Ev.mutate, Ev.post, Ev.save]⟩ := by
  simp only [wmApprove, hval, hidx, hnd, if_false]

theorem wmApprove_deployer (env : Env) (w : World) (w1 : World) (st1 : WS) (i : Nat)
    (hval : wmValidateStage env ((mkState w.masterDoc).get sCurrentStage) = .ok)
    (hidx : stagesIndex ((mkState w.masterDoc).get sCurrentStage) = some i)
    (hd : (mkState w.masterDoc).get sCurrentStage = some sDeployer)
    (hcc : completeCycle env w (mkState w.masterDoc) = some (w1, st1)) :
    wmApprove env w =
      ⟨none,
       { postActions env (some sEngineer) w1 with
         masterDoc := (saveContent (st1.set sCurrentStage sEngineer)) },
       some (st1.set sCurrentStage sEngineer),
       [Ev.validate, Ev.mutate, Ev.post, Ev.save]⟩ := by
  rw [hd] at hval hidx
  simp only [wmApprove, hd, hval, hidx, hcc, if_pos]

theorem completeCycle_some (env : Env) (w : World) (st : WS) (n : Int)
    (h : pyIntOpt (st.get sRequirementPointer) = some n) :
    ∃ w1, completeCycle env w st =
        some (w1, st.set sRequirementPointer (intToStr (n + 1))) ∧
      w1.approvalLog = w.approvalLog ++ [logLine n env.now] ∧
      w1.lastCommitFile = w.lastCommitFile ∧
      w1.masterDoc = w.masterDoc := by
  unfold completeCycle
  rw [h]
  cases hd : w.requirementsDoc with
  | none =>
    refine ⟨{ w with approvalLog := w.approvalLog ++ [logLine n env.now] },
      ?_, rfl, rfl, rfl⟩
    simp only [hd]
  | some doc =>
    refine ⟨{ w with
                approvalLog := w.approvalLog ++ [logLine n env.now],
                requirementsDoc := some (updateChecklist n doc) },
      ?_, rfl, rfl, rfl⟩
    simp only [hd]

theorem smApprove_shape (env : Env) (w : World) :
    (∃ e, smApprove env w = ⟨some e, w, none, [Ev.validate]⟩) ∨
    (∃ w' fs, smApprove env w =
      ⟨none, w', some fs, [Ev.validate, Ev.mutate, Ev.save, Ev.post]⟩) := by
  cases hv : smValidateStage env (mkState w.masterDoc) with
  | fail e => exact Or.inl ⟨.failed e, smApprove_fail env w e hv⟩
  | crash => exact Or.inl ⟨.crashed, smApprove_vcrash env w hv⟩
  | ok =>
    cases hi : stagesIndex ((mkState w.masterDoc).get sCurrentStage) with
    | none => exact Or.inl ⟨.crashed, by simp only [smApprove, hv, hi]⟩
    | some i =>
      by_cases hterm : i = STAGES.length - 1
      · cases hcc : completeCycle env w (mkState w.masterDoc) with
        | none =>
          exact Or.inl ⟨.crashed, by simp only [smApprove, hv, hi, hcc, hterm, if_pos]⟩
        | some p =>
          obtain ⟨w1, st1⟩ := p
          subst hterm
          have h := smApprove_terminal env w w1 st1 hv hi hcc
          exact Or.inr ⟨_, _, h⟩
      · have h := smApprove_nonterminal env w i hv hi hterm
        exact Or.inr ⟨_, _, h⟩

theorem wmApprove_shape (env : Env) (w : World) :
    (∃ e, wmApprove env w = ⟨some e, w, none, [Ev.validate]⟩) ∨
    (∃ w' fs, wmApprove env w =
      ⟨none, w', some fs, [Ev.validate, Ev.mutate, Ev.post, Ev.save]⟩) := by
  cases hv : wmValidateStage env ((mkState w.masterDoc).get sCurrentStage) with
  | fail e => exact Or.inl ⟨.failed e, wmApprove_fail env w e hv⟩
  | crash => exact Or.inl ⟨.crashed, by simp only [wmApprove, hv]⟩
  | ok =>
    cases hi : stagesIndex ((mkState w.masterDoc).get sCurrentStage) with
    | none => exact Or.inl ⟨.crashed, by simp only [wmApprove, hv, hi]⟩
    | some i =>
      by_cases hdep : (mkState w.masterDoc).get sCurrentStage = some sDeployer
      · cases hcc : completeCycle env w (mkState w.masterDoc) with
        | none =>
          refine Or.inl ⟨.crashed, ?_⟩
          rw [hdep] at hv hi
          simp only [wmApprove, hdep, hv, hi, hcc, if_pos]
        | some p =>
          obtain ⟨w1, st1⟩ := p
          have h := wmApprove_deployer env w w1 st1 i hv hi hdep hcc
          exact Or.inr ⟨_, _, h⟩
      · have h := wmApprove_nondeployer env w i hv hi hdep
        exact Or.inr ⟨_, _, h⟩

/-- C1 counterexample: in `WorkflowManager.approve` (state_manager.py
32-39) the post-transition side effect runs BEFORE `save`: approving the
Research stage transitions into Coder, the post action fires on the new
stage and writes the tracking file, and only then is the state document
saved — the phase trace is validate, mutate, post, save. -/
theorem C1_counterexample :
    (wmApprove envBase wResearcher).exit = none ∧
    (wmApprove envBase wResearcher).trace =
      [Ev.validate, Ev.mutate, Ev.post, Ev.save] ∧
    (wmApprove envBase wResearcher).world.lastCommitFile = some (s2l ("bbb")) := by
  decide

/-- C1 (amended): `StateManager.approve` orders its phases as validation,
mutation, save, post-transition side effects, and any validation failure
or crash exits with the whole world — in particular the state document —
untouched; `WorkflowManager.approve` gives the same untouched-on-failure
guarantee but runs the post-transition side effects before `save`. -/
theorem C1_amended (env : Env) (w : World) :
    ((smApprove env w).exit ≠ none →
      (smApprove env w).world = w ∧ (smApprove env w).trace = [Ev.validate]) ∧
    ((smApprove env w).exit = none →
      (smApprove env w).trace = [Ev.validate, Ev.mutate, Ev.save, Ev.post]) ∧
    ((wmApprove env w).exit ≠ none →
      (wmApprove env w).world = w ∧ (wmApprove env w).trace = [Ev.validate]) ∧
    ((wmApprove env w).exit = none →
      (wmApprove env w).trace = [Ev.validate, Ev.mutate, Ev.post, Ev.save]) := by
  refine ⟨?_, ?_, ?_, ?_⟩
  · intro hne
    rcases smApprove_shape env w with ⟨e, he⟩ | ⟨w', fs, he⟩
    · rw [he]
      exact ⟨rfl, rfl⟩
    · rw [he] at hne
      simp at hne
  · intro hz
    rcases smApprove_shape env w with ⟨e, he⟩ | ⟨w', fs, he⟩
    · rw [he] at hz
      simp at hz
    · rw [he]
  · intro hne
    rcases wmApprove_shape env w with ⟨e, he⟩ | ⟨w', fs, he⟩
    · rw [he]
      exact ⟨rfl, rfl⟩
    · rw [he] at hne
      simp at hne
  · intro hz
    rcases wmApprove_shape env w with ⟨e, he⟩ | ⟨w', fs, he⟩
    · rw [he] at hz
      simp at hz
    · rw [he]

/-- Witness for C1: a successful `StateManager.approve` run shows the
validate–mutate–save–post order concretely. -/
theorem C1_witness :
    (smApprove envBase wEngineer).trace =
      [Ev.validate, Ev.mutate, Ev.save, Ev.post] :=
  (C1_amended envBase wEngineer).2.1 (by decide)

/-- C2: the stage successor is the fixed five-stage cycle.  From any of
the five stages, when validation passes (and, on the terminal stage, the
requirement pointer parses as an integer), `StateManager.approve`
succeeds and the final state's `CurrentStage` equals the successor
computed by the engine; and that successor function is exactly
Engineer → Researcher → Coder → Validator → Deployer → Engineer
(Specification → Research → Implementation → Verification → Release,
wrapping to Specification). -/
theorem C2_stage_cycle (env : Env) (w : World) (s : Str)
    (hmem : s ∈ STAGES)
    (hstage : (mkState w.masterDoc).get sCurrentStage = some s)
    (hval : smValidateStage env (mkState w.masterDoc) = .ok)
    (hptr : s = sDeployer →
      pyIntOpt ((mkState w.masterDoc).get sRequirementPointer) ≠ none) :
    ((smApprove env w).exit = none ∧
      ∃ fs, (smApprove env w).finalState = some fs ∧
        fs.get sCurrentStage = smNextStage s) ∧
    (smNextStage sEngineer = some sResearcher ∧
     smNextStage sResearcher = some sCoder ∧
     smNextStage sCoder = some sValidator ∧
     smNextStage sValidator = some sDeployer ∧
     smNextStage sDeployer = some sEngineer) ∧
    (∀ t ∈ STAGES, wmNextStage t = smNextStage t) := by
  refine ⟨?_, by decide, by decide⟩
  by_cases hdep : s = sDeployer
  · subst hdep
    have hidx : stagesIndex ((mkState w.masterDoc).get sCurrentStage) =
        some (STAGES.length - 1) := by
      rw [hstage]
      decide
    obtain ⟨n, hn⟩ := Option.ne_none_iff_exists.1 (hptr rfl)
    obtain ⟨w1, hcc, _, _, _⟩ :=
      completeCycle_some env w (mkState w.masterDoc) n hn.symm
    rw [smApprove_terminal env w w1 _ hval hidx hcc]
    refine ⟨rfl, _, rfl, ?_⟩
    show dGet (dictSet _ sCurrentStage (STAGES.getD 0 [])) sCurrentStage = _
    rw [dGet_dictSet_self]
    decide
  · have hi : ∃ i, stagesIndex (some s) = some i ∧ ¬ i = STAGES.length - 1 ∧
        smNextStage s = some (STAGES.getD (i + 1) []) := by
      simp only [STAGES, List.mem_cons, List.not_mem_nil, or_false] at hmem
      rcases hmem with h | h | h | h | h <;> subst h
      · exact ⟨0, by decide, by decide, by decide⟩
      · exact ⟨1, by decide, by decide, by decide⟩
      · exact ⟨2, by decide, by decide, by decide⟩
      · exact ⟨3, by decide, by decide, by decide⟩
      · exact absurd rfl hdep
    obtain ⟨i, hsi, hnt, hnext⟩ := hi
    have hidx : stagesIndex ((mkState w.masterDoc).get sCurrentStage) = some i := by
      rw [hstage, hsi]
    rw [smApprove_nonterminal env w i hval hidx hnt]
    refine ⟨rfl, _, rfl, ?_⟩
    show dGet (dictSet _ sCurrentStage (STAGES.getD (i + 1) [])) sCurrentStage = _
    rw [dGet_dictSet_self, hnext]

/-- Witness for C2 at the first stage. -/
theorem C2_witness :
    (smApprove envBase wEngineer).exit = none ∧
    ∃ fs, (smApprove envBase wEngineer).finalState = some fs ∧
      fs.get sCurrentStage = smNextStage sEngineer :=
  (C2_stage_cycle envBase wEngineer sEngineer (by decide) (by decide)
    (by decide) (by decide)).1

theorem smValidate_deployer (env : Env) (st : WS)
    (hstage : st.get sCurrentStage = some sDeployer)
    (hpe : env.pathExists (s2l ("deliverables/deployment")) = true)
    (hne : env.dirNonEmpty (s2l ("deliverables/deployment")) = true) :
    smValidateStage env st =
      (if getRemoteTagsWithCommits env ≠ [] then
        (match unpackAll ((getRemoteTagsWithCommits env).map Prod.fst) with
         | none => .crash
         | some pairs =>
           if (match env.latestCommit with
               | some c => (pairs.map Prod.snd).contains c
               | none => false) then .ok
           else .fail .UntaggedRemote)
      else
        (if getLocalTagsForCommit env env.latestCommit = [] then
          .fail .UntaggedLocal
        else .ok)) := by
  have hdp : dGetOpt DELIVERABLE_PATHS (some sDeployer) =
      some (s2l ("deliverables/deployment")) := by decide
  have hc1 : ((some sDeployer : Option Str) = some sCoder) = False :=
    eq_false (by decide)
  have hc2 : ((some sDeployer : Option Str) = some sValidator) = False :=
    eq_false (by decide)
  simp only [smValidateStage, hstage]
  rw [hdp]
  simp only [hpe, hne, hc1, hc2, Bool.and_self, not_true, Bool.true_and,
    if_false, if_true, eq_self_iff_true, Bool.not_eq_true', reduceIte]

theorem smValidate_coder (env : Env) (st : WS)
    (hstage : st.get sCurrentStage = some sCoder)
    (hpe : env.pathExists (s2l ("deliverables/coding")) = true)
    (hne : env.dirNonEmpty (s2l ("deliverables/coding")) = true) :
    smValidateStage env st =
      (if st.get sLastCommitSHA = env.latestCommit then .fail .NoNewCommits
      else if strip (env.diffSrc (st.get sLastCommitSHA) env.latestCommit) = [] then
        .fail .NoMeaningfulChange
      else .ok) := by
  have hdp : dGetOpt DELIVERABLE_PATHS (some sCoder) =
      some (s2l ("deliverables/coding")) := by decide
  simp only [smValidateStage, hstage]
  rw [hdp]
  simp only [hpe, hne, Bool.and_self, not_true, if_false, if_true,
    eq_self_iff_true, Bool.not_eq_true', reduceIte]

/-- C3 counterexample: the remote tag query SUCCEEDS (exit status 0) but
reports zero tags, so the latest commit is certainly not among the
remotely tagged commits; the claim requires an immediate
`UntaggedRelease` failure with no local fallback, yet `approve()`
succeeds by falling back to the local tag — because
`get_remote_tags_with_commits` returns the same empty mapping for
"query failed" and "query succeeded, found nothing", and the validator
only tests that mapping for emptiness. -/
theorem C3_counterexample :
    envRemoteEmpty.remoteLs = some [] ∧
    getRemoteTagsWithCommits envRemoteEmpty = [] ∧
    getLocalTagsForCommit envRemoteEmpty envRemoteEmpty.latestCommit =
      [s2l ("v1.0")] ∧
    (smApprove envRemoteEmpty wDeployer).exit = none := by
  decide

/-- C3 (amended): Release-stage admission keys on the parsed remote tag
mapping, not on the query outcome, and its non-empty branch is broken by
dict-key iteration.  When the mapping is empty — whether the remote
query failed OR succeeded finding zero tags — `approve()` falls back to
the local tag lookup: no local tag fails with `UntaggedRelease` leaving
the state document untouched, and a local tag admits the stage.  When
the mapping is non-empty, `for tag, tag_commit in remote_tags` unpacks
the tag NAMES: if any name does not have exactly two characters,
`approve()` crashes with an uncaught `ValueError` (document untouched);
otherwise the latest commit is compared against the names' SECOND
CHARACTERS — so any real commit hash fails with `UntaggedRelease`
without the local tags being consulted, and only a one-character
"commit" matching such a second character would be admitted.  In the two
non-empty-branch outcomes the result is independent of the local tag
query. -/
theorem C3_amended (env : Env) (w : World)
    (hstage : (mkState w.masterDoc).get sCurrentStage = some sDeployer)
    (hpe : env.pathExists (s2l ("deliverables/deployment")) = true)
    (hne : env.dirNonEmpty (s2l ("deliverables/deployment")) = true) :
    (getRemoteTagsWithCommits env ≠ [] →
      unpackAll ((getRemoteTagsWithCommits env).map Prod.fst) = none →
      (smApprove env w).exit = some .crashed ∧
      (smApprove env w).world = w ∧
      ∀ f, smApprove { env with localLs := f } w = smApprove env w) ∧
    (∀ pairs, getRemoteTagsWithCommits env ≠ [] →
      unpackAll ((getRemoteTagsWithCommits env).map Prod.fst) = some pairs →
      (match env.latestCommit with
        | some c => (pairs.map Prod.snd).contains c
        | none => false) = false →
      (smApprove env w).exit = some (.failed .UntaggedRemote) ∧
      (smApprove env w).world = w ∧
      ∀ f, smApprove { env with localLs := f } w = smApprove env w) ∧
    (∀ pairs, getRemoteTagsWithCommits env ≠ [] →
      unpackAll ((getRemoteTagsWithCommits env).map Prod.fst) = some pairs →
      (match env.latestCommit with
        | some c => (pairs.map Prod.snd).contains c
        | none => false) = true →
      smValidateStage env (mkState w.masterDoc) = .ok) ∧
    (getRemoteTagsWithCommits env = [] →
      getLocalTagsForCommit env env.latestCommit = [] →
      (smApprove env w).exit = some (.failed .UntaggedLocal) ∧
      (smApprove env w).world = w) ∧
    (getRemoteTagsWithCommits env = [] →
      getLocalTagsForCommit env env.latestCommit ≠ [] →
      smValidateStage env (mkState w.masterDoc) = .ok ∧
      (pyIntOpt ((mkState w.masterDoc).get sRequirementPointer) ≠ none →
        (smApprove env w).exit = none)) := by
  have hrem2 : ∀ f, getRemoteTagsWithCommits { env with localLs := f } =
      getRemoteTagsWithCommits env := by
    intro f
    cases env
    rfl
  refine ⟨?_, ?_, ?_, ?_, ?_⟩
  · intro hrem hcrash
    have hval : smValidateStage env (mkState w.masterDoc) = .crash := by
      rw [smValidate_deployer env _ hstage hpe hne, if_pos hrem, hcrash]
    have happ := smApprove_vcrash env w hval
    refine ⟨by rw [happ], by rw [happ], ?_⟩
    intro f
    have hval2 : smValidateStage { env with localLs := f }
        (mkState w.masterDoc) = .crash := by
      rw [smValidate_deployer { env with localLs := f } _ hstage hpe hne,
        hrem2 f, if_pos hrem, hcrash]
    rw [smApprove_vcrash { env with localLs := f } w hval2, happ]
  · intro pairs hrem hpairs hmem
    have hval : smValidateStage env (mkState w.masterDoc) =
        .fail .UntaggedRemote := by
      rw [smValidate_deployer env _ hstage hpe hne, if_pos hrem, hpairs]
      show (if (match env.latestCommit with
            | some c => (pairs.map Prod.snd).contains c
            | none => false) = true then VOut.ok
          else VOut.fail VErr.UntaggedRemote) = _
      rw [hmem]
      simp
    have happ := smApprove_fail env w _ hval
    refine ⟨by rw [happ], by rw [happ], ?_⟩
    intro f
    have hval2 : smValidateStage { env with localLs := f }
        (mkState w.masterDoc) = .fail .UntaggedRemote := by
      rw [smValidate_deployer { env with localLs := f } _ hstage hpe hne,
        hrem2 f, if_pos hrem, hpairs]
      show (if (match env.latestCommit with
            | some c => (pairs.map Prod.snd).contains c
            | none => false) = true then VOut.ok
          else VOut.fail VErr.UntaggedRemote) = _
      rw [hmem]
      simp
    rw [smApprove_fail { env with localLs := f } w _ hval2, happ]
  · intro pairs hrem hpairs hmem
    rw [smValidate_deployer env _ hstage hpe hne, if_pos hrem, hpairs]
    show (if (match env.latestCommit with
          | some c => (pairs.map Prod.snd).contains c
          | none => false) = true then VOut.ok
        else VOut.fail VErr.UntaggedRemote) = _
    rw [hmem]
    simp
  · intro hrem hloc
    have hval : smValidateStage env (mkState w.masterDoc) =
        .fail .UntaggedLocal := by
      rw [smValidate_deployer env _ hstage hpe hne, if_neg (by simp [hrem]),
        if_pos hloc]
    have happ := smApprove_fail env w _ hval
    exact ⟨by rw [happ], by rw [happ]⟩
  · intro hrem hloc
    have hval : smValidateStage env (mkState w.masterDoc) = .ok := by
      rw [smValidate_deployer env _ hstage hpe hne, if_neg (by simp [hrem]),
        if_neg hloc]
    refine ⟨hval, ?_⟩
    intro hptr
    have hidx : stagesIndex ((mkState w.masterDoc).get sCurrentStage) =
        some (STAGES.length - 1) := by
      rw [hstage]
      decide
    obtain ⟨n, hn⟩ := Option.ne_none_iff_exists.1 hptr
    obtain ⟨w1, hcc, _, _, _⟩ :=
      completeCycle_some env w (mkState w.masterDoc) n hn.symm
    rw [smApprove_terminal env w w1 _ hval hidx hcc]



/-- Witness for C3: with the remote mapping holding the length-2 tag
name `v1` (not pointing at the latest commit), `approve()` fails at the
remote site without touching the document; with it holding the
realistic tag name `v1.0`, the dict-key unpacking crashes. -/
theorem C3_witness :
    ((smApprove envRemoteMiss wDeployer).exit =
      some (.failed .UntaggedRemote) ∧
     (smApprove envRemoteMiss wDeployer).world = wDeployer) ∧
    (smApprove envRemoteCrash wDeployer).exit = some .crashed :=
  ⟨⟨(((C3_amended envRemoteMiss wDeployer (by decide) (by decide)
        (by decide)).2.1 [(s2l ("v"), s2l ("1"))] (by decide) (by decide)
        (by decide)).1),
    (((C3_amended envRemoteMiss wDeployer (by decide) (by decide)
        (by decide)).2.1 [(s2l ("v"), s2l ("1"))] (by decide) (by decide)
        (by decide)).2.1)⟩,
   ((C3_amended envRemoteCrash wDeployer (by decide) (by decide)
        (by decide)).1 (by decide) (by decide)).1⟩

/-- C4 counterexample: the cumulative insertions+deletions between the
recorded commit and the current commit is 2 (< 10) — `get_commit_stats`
computes exactly that — yet Implementation-stage `approve()` succeeds:
no `InsufficientChange` check exists anywhere in `_validate_stage`, and
`get_commit_stats` is never called by it. -/
theorem C4_counterexample :
    getCommitStats envBase wCoder = some ⟨1, 2, 0⟩ ∧
    (getCommitStats envBase wCoder).map
      (fun s => s.insertions + s.deletions) = some 2 ∧
    (2 : Int) < 10 ∧
    (smApprove envBase wCoder).exit = none := by
  refine ⟨by decide, by decide, by decide, by decide⟩

/-- C4 (amended): Implementation-stage admission requires that the
current commit differ from the state document's `LastCommitSHA` (else
the "no new commits" failure) and that the diff restricted to `src/` be
non-empty after stripping (else the "no meaningful code changes"
failure); both failures leave the state document untouched.  There is no
minimum line-count threshold: admission never consults change statistics,
and with a new commit and any non-whitespace `src/` diff, validation
admits the stage regardless of how few lines changed. -/
theorem C4_amended (env : Env) (w : World)
    (hstage : (mkState w.masterDoc).get sCurrentStage = some sCoder)
    (hpe : env.pathExists (s2l ("deliverables/coding")) = true)
    (hne : env.dirNonEmpty (s2l ("deliverables/coding")) = true) :
    ((mkState w.masterDoc).get sLastCommitSHA = env.latestCommit →
      (smApprove env w).exit = some (.failed .NoNewCommits) ∧
      (smApprove env w).world = w) ∧
    ((mkState w.masterDoc).get sLastCommitSHA ≠ env.latestCommit →
      strip (env.diffSrc ((mkState w.masterDoc).get sLastCommitSHA)
        env.latestCommit) = [] →
      (smApprove env w).exit = some (.failed .NoMeaningfulChange) ∧
      (smApprove env w).world = w) ∧
    ((mkState w.masterDoc).get sLastCommitSHA ≠ env.latestCommit →
      strip (env.diffSrc ((mkState w.masterDoc).get sLastCommitSHA)
        env.latestCommit) ≠ [] →
      (smApprove env w).exit = none) := by
  refine ⟨?_, ?_, ?_⟩
  · intro hsha
    have hval : smValidateStage env (mkState w.masterDoc) =
        .fail .NoNewCommits := by
      rw [smValidate_coder env _ hstage hpe hne, if_pos hsha]
    have happ := smApprove_fail env w _ hval
    exact ⟨by rw [happ], by rw [happ]⟩
  · intro hsha hdiff
    have hval : smValidateStage env (mkState w.masterDoc) =
        .fail .NoMeaningfulChange := by
      rw [smValidate_coder env _ hstage hpe hne, if_neg hsha, if_pos hdiff]
    have happ := smApprove_fail env w _ hval
    exact ⟨by rw [happ], by rw [happ]⟩
  · intro hsha hdiff
    have hval : smValidateStage env (mkState w.masterDoc) = .ok := by
      rw [smValidate_coder env _ hstage hpe hne, if_neg hsha, if_neg hdiff]
    have hidx : stagesIndex ((mkState w.masterDoc).get sCurrentStage) =
        some 2 := by
      rw [hstage]
      decide
    rw [smApprove_nonterminal env w 2 hval hidx (by decide)]

/-- Witness for C4: the concrete small-change scenario admits the stage. -/
theorem C4_witness :
    (smApprove envBase wCoder).exit = none :=
  (C4_amended envBase wCoder (by decide) (by decide) (by decide)).2.2
    (by decide) (by decide)

/-- C5 counterexample: the working tree is dirty
(`git status --porcelain` reports a modified file, so
`is_working_directory_clean` is false), yet `approve()` succeeds — no
`DirtyWorkingTree` check is performed at approval entry or anywhere
else. -/
theorem C5_counterexample :
    isWorkingDirectoryClean envDirty = false ∧
    (smApprove envDirty wEngineer).exit = none := by
  refine ⟨by decide, by decide⟩

/-- C5 (amended): neither `StateManager.approve` nor
`WorkflowManager.approve` consults the working tree at all: the entire
outcome of either approve is invariant under the
`git status --porcelain` output, so no invocation can fail with
`DirtyWorkingTree`.  `is_working_directory_clean` exists in the
version-control layer but is dead code for the approval flow. -/
theorem C5_amended (env : Env) (w : World) (p : Str) :
    smApprove { env with statusPorcelain := p } w = smApprove env w ∧
    wmApprove { env with statusPorcelain := p } w = wmApprove env w := by
  cases env
  exact ⟨rfl, rfl⟩

theorem completeCycle_lastFile (env : Env) (w : World) (st : WS)
    (w1 : World) (st1 : WS)
    (h : completeCycle env w st = some (w1, st1)) :
    w1.lastCommitFile = w.lastCommitFile := by
  unfold completeCycle at h
  cases hp : pyIntOpt (st.get sRequirementPointer) with
  | none =>
    rw [hp] at h
    simp at h
  | some n =>
    rw [hp] at h
    cases hd : w.requirementsDoc with
    | none =>
      simp only [hd] at h
      obtain ⟨h1, _⟩ := Prod.mk.injEq .. ▸ (Option.some.injEq .. ▸ h)
      rw [← h1]
    | some doc =>
      simp only [hd] at h
      obtain ⟨h1, _⟩ := Prod.mk.injEq .. ▸ (Option.some.injEq .. ▸ h)
      rw [← h1]

theorem postActions_log (env : Env) (stage : Option Str) (w : World) :
    (postActions env stage w).approvalLog = w.approvalLog := by
  unfold postActions
  split <;> rfl

/-- C6 counterexample: a successful Implementation-stage approval records
the just-approved commit `bbb` into the `LAST_COMMIT_FILE` tracking file
— but the state document's `LastCommitSHA` key, which the next
Implementation-stage validation actually compares against, still holds
the old `aaa`. -/
theorem C6_counterexample :
    (smApprove envBase wCoder).exit = none ∧
    (smApprove envBase wCoder).world.lastCommitFile = some (s2l ("bbb")) ∧
    (mkState (smApprove envBase wCoder).world.masterDoc).get sLastCommitSHA =
      some (s2l ("aaa")) ∧
    (s2l ("aaa") : Str) ≠ s2l ("bbb") := by
  refine ⟨by decide, by decide, by decide, by decide⟩

/-- C6 (amended): exactly the `approve()` invocations that leave the
Coder (Implementation) stage run the post-transition side effect, and it
records the current `HEAD` commit into the `LAST_COMMIT_FILE` tracking
file — not into the state document's `LastCommitSHA` key.  Any approve
from another stage (and any failed approve) leaves the tracking file
unchanged.  Since the next Implementation-stage validation compares
against the state key, the recorded hash is not what it consults. -/
theorem C6_amended (env : Env) (w : World) :
    ((mkState w.masterDoc).get sCurrentStage = some sCoder →
      (smApprove env w).exit = none →
      (smApprove env w).world.lastCommitFile = some env.headCommit) ∧
    ((mkState w.masterDoc).get sCurrentStage ≠ some sCoder →
      (smApprove env w).world.lastCommitFile = w.lastCommitFile) := by
  constructor
  · intro hstage hexit
    cases hv : smValidateStage env (mkState w.masterDoc) with
    | fail e =>
      rw [smApprove_fail env w e hv] at hexit
      simp at hexit
    | crash =>
      rw [smApprove_vcrash env w hv] at hexit
      simp at hexit
    | ok =>
      have hidx : stagesIndex ((mkState w.masterDoc).get sCurrentStage) =
          some 2 := by
        rw [hstage]
        decide
      rw [smApprove_nonterminal env w 2 hv hidx (by decide)]
      simp [postActions, hstage]
  · intro hstage
    cases hv : smValidateStage env (mkState w.masterDoc) with
    | fail e => rw [smApprove_fail env w e hv]
    | crash => rw [smApprove_vcrash env w hv]
    | ok =>
      cases hi : stagesIndex ((mkState w.masterDoc).get sCurrentStage) with
      | none =>
        rw [show smApprove env w = ⟨some .crashed, w, none, [Ev.validate]⟩ from by
          simp only [smApprove, hv, hi]]
      | some i =>
        by_cases hterm : i = STAGES.length - 1
        · subst hterm
          cases hcc : completeCycle env w (mkState w.masterDoc) with
          | none =>
            rw [show smApprove env w = ⟨some .crashed, w, none, [Ev.validate]⟩ from by
              simp only [smApprove, hv, hi, hcc, if_pos]]
          | some p =>
            obtain ⟨w1, st1⟩ := p
            rw [smApprove_terminal env w w1 st1 hv hi hcc]
            show (postActions env _ _).lastCommitFile = _
            unfold postActions
            rw [if_neg hstage]
            show w1.lastCommitFile = w.lastCommitFile
            exact completeCycle_lastFile env w _ w1 st1 hcc
        · rw [smApprove_nonterminal env w i hv hi hterm]
          show (postActions env _ _).lastCommitFile = _
          unfold postActions
          rw [if_neg hstage]

/-- Witness for C6: the Coder-stage approval writes the tracking file. -/
theorem C6_witness :
    (smApprove envBase wCoder).world.lastCommitFile = some (s2l ("bbb")) :=
  (C6_amended envBase wCoder).1 (by decide) (by decide)

/-- C9: cycle completion.  A successful terminal-stage (Deployer)
approval increments `RequirementPointer` by exactly 1 — the new stored
string parses back to the old integer plus one — and appends exactly one
approval-log line `Requirement <id> approved at <timestamp>`; a
successful approval of any non-terminal stage leaves both the approval
log and `RequirementPointer` unchanged. -/
theorem C9_cycle (env : Env) (w : World) :
    (∀ n : Int,
      (mkState w.masterDoc).get sCurrentStage = some sDeployer →
      smValidateStage env (mkState w.masterDoc) = .ok →
      pyIntOpt ((mkState w.masterDoc).get sRequirementPointer) = some n →
      (smApprove env w).exit = none ∧
      (smApprove env w).world.approvalLog =
        w.approvalLog ++ [logLine n env.now] ∧
      ∃ fs, (smApprove env w).finalState = some fs ∧
        fs.get sRequirementPointer = some (intToStr (n + 1)) ∧
        pyIntOpt (some (intToStr (n + 1))) = some (n + 1)) ∧
    (∀ s, s ∈ STAGES → s ≠ sDeployer →
      (mkState w.masterDoc).get sCurrentStage = some s →
      smValidateStage env (mkState w.masterDoc) = .ok →
      (smApprove env w).exit = none ∧
      (smApprove env w).world.approvalLog = w.approvalLog ∧
      ∃ fs, (smApprove env w).finalState = some fs ∧
        fs.get sRequirementPointer =
          (mkState w.masterDoc).get sRequirementPointer) := by
  constructor
  · intro n hstage hval hptr
    have hidx : stagesIndex ((mkState w.masterDoc).get sCurrentStage) =
        some (STAGES.length - 1) := by
      rw [hstage]
      decide
    obtain ⟨w1, hcc, hlog, _, _⟩ :=
      completeCycle_some env w (mkState w.masterDoc) n hptr
    rw [smApprove_terminal env w w1 _ hval hidx hcc]
    refine ⟨rfl, ?_, _, rfl, ?_, ?_⟩
    · rw [postActions_log]
      exact hlog
    · show dGet (dictSet (dictSet _ sRequirementPointer (intToStr (n + 1)))
        sCurrentStage (STAGES.getD 0 [])) sRequirementPointer = _
      rw [dGet_dictSet_other _ _ _ _ (by decide), dGet_dictSet_self]
    · show pyInt (intToStr (n + 1)) = some (n + 1)
      exact pyInt_intToStr (n + 1)
  · intro s hmem hdep hstage hval
    have hi : ∃ i, stagesIndex (some s) = some i ∧ ¬ i = STAGES.length - 1 := by
      simp only [STAGES, List.mem_cons, List.not_mem_nil, or_false] at hmem
      rcases hmem with h | h | h | h | h <;> subst h
      · exact ⟨0, by decide, by decide⟩
      · exact ⟨1, by decide, by decide⟩
      · exact ⟨2, by decide, by decide⟩
      · exact ⟨3, by decide, by decide⟩
      · exact absurd rfl hdep
    obtain ⟨i, hsi, hnt⟩ := hi
    have hidx : stagesIndex ((mkState w.masterDoc).get sCurrentStage) =
        some i := by
      rw [hstage, hsi]
    rw [smApprove_nonterminal env w i hval hidx hnt]
    refine ⟨rfl, by rw [postActions_log], _, rfl, ?_⟩
    show dGet (dictSet _ sCurrentStage (STAGES.getD (i + 1) []))
      sRequirementPointer = _
    rw [dGet_dictSet_other _ _ _ _ (by decide)]
    rfl

/-- Witness for C9: the concrete Deployer approval takes the pointer
from 3 to 4 and appends one log line. -/
theorem C9_witness :
    (smApprove envBase wDeployer).exit = none ∧
    (smApprove envBase wDeployer).world.approvalLog =
      wDeployer.approvalLog ++ [logLine 3 envBase.now] ∧
    ∃ fs, (smApprove envBase wDeployer).finalState = some fs ∧
      fs.get sRequirementPointer = some (intToStr (3 + 1)) ∧
      pyIntOpt (some (intToStr (3 + 1))) = some (3 + 1) :=
  (C9_cycle envBase wDeployer).1 3 (by decide) (by decide) (by decide)
